import Mathlib

/-!
Verification development for the guardian betting-strategy engine of
quomap/pyethereum (src/ethereum/guardian/strategy.py).  The data model and
the operations are embedded shallowly: byte strings become lists of
naturals, Python floats become rationals, Python exceptions become an
explicit error type threaded next to the state, and all collaborators that
live outside the sources (the Casper contract, the EVM state transition,
the network, the crypto and ABI primitives) become oracle parameters.
-/

set_option maxHeartbeats 1000000
set_option maxRecDepth 100000

namespace PyEth

/-! ### Rational numbers

Python floats are modelled as rational numbers.  A dedicated executable
representation is used (a normalized numerator-denominator pair with a
fuel-bounded gcd) so that every operation reduces inside the kernel and
concrete runs of the engine can be evaluated by decide. -/

/-- Fuel-bounded Euclid gcd; the fuel a + b + 1 always suffices. -/
def ngcdF : Nat → Nat → Nat → Nat
  | 0, a, b => a + b
  | f + 1, a, b => if a = 0 then b else ngcdF f (b % a) a

/-- Greatest common divisor, kernel-reducible. -/
def ngcd (a b : Nat) : Nat := ngcdF (a + b + 1) a b

/-- A rational number in lowest terms with a positive denominator.  All
operations below normalize, so structural equality of Q values built by
them coincides with numeric equality, matching Python float compare. -/
structure Q where
  num : Int
  den : Nat
deriving DecidableEq

/-- Normalizing constructor for num / den (den is expected positive). -/
def qmk (n : Int) (d : Nat) : Q :=
  let g := ngcd n.natAbs d
  if g = 0 then ⟨n, d⟩ else ⟨n / (g : Int), d / g⟩

/-- Embedding of the integers. -/
def Q.ofInt (n : Int) : Q := ⟨n, 1⟩

instance (n : Nat) : OfNat Q n := ⟨⟨(n : Int), 1⟩⟩

instance : Add Q := ⟨fun a b => qmk (a.num * b.den + b.num * a.den) (a.den * b.den)⟩

instance : Sub Q := ⟨fun a b => qmk (a.num * b.den - b.num * a.den) (a.den * b.den)⟩

instance : Mul Q := ⟨fun a b => qmk (a.num * b.num) (a.den * b.den)⟩

instance : LE Q := ⟨fun a b => a.num * b.den ≤ b.num * a.den⟩

instance : LT Q := ⟨fun a b => a.num * b.den < b.num * a.den⟩

instance (a b : Q) : Decidable (a ≤ b) :=
  inferInstanceAs (Decidable (a.num * b.den ≤ b.num * a.den))

instance (a b : Q) : Decidable (a < b) :=
  inferInstanceAs (Decidable (a.num * b.den < b.num * a.den))

/-- The Python max of two rationals (the second argument only when it is
strictly larger, as in max(a, b)). -/
def qmax (a b : Q) : Q := if a < b then b else a

/-- The rational one half. -/
def qHalf : Q := ⟨1, 2⟩

/-- Byte strings (and in particular 32-byte hashes) are modelled as lists
of naturals. -/
abbrev Hash := List Nat

/-- The 32-byte zero hash used by the source as the not-yet-computed and
finalized-to-no-block marker. -/
def zeroHash : Hash := List.replicate 32 0

/-- MAX_RECALC constant of strategy.py. -/
def MAX_RECALC : Nat := 9

/-- MAX_LONG_RECALC constant of strategy.py. -/
def MAX_LONG_RECALC : Nat := 14

/-- Modelled from the spec: the finality thresholds FINALITY_HIGH and
FINALITY_LOW come from ethereum.guardian.utils, which is not part of the
sources; the spec describes them as probability thresholds beyond which a
block is considered finalized.  Concrete rational values are chosen with
FINALITY_LOW < 1/2 < FINALITY_HIGH. -/
def FINALITY_HIGH : Q := qmk 9999 10000

/-- Modelled from the spec: lower finality threshold, see FINALITY_HIGH. -/
def FINALITY_LOW : Q := qmk 1 10000

/-- Modelled from the spec: decode_prob of ethereum.guardian.utils (not in
the sources) reads a probability out of a one-byte log-odds table; entry i
holds the probability whose odds are 2 ^ (i - 128), written directly in
lowest terms. -/
def decode_prob (i : Nat) : Q :=
  if i ≤ 128 then ⟨1, 2 ^ (128 - i) + 1⟩ else ⟨(2 ^ (i - 128) : Nat), 2 ^ (i - 128) + 1⟩

/-- Helper for encode_prob: the largest index j ≤ i whose table entry does
not exceed p (0 when every entry exceeds p). -/
def encGo : Nat → Q → Nat
  | 0, _ => 0
  | i + 1, p => if decode_prob (i + 1) ≤ p then i + 1 else encGo i p

/-- Modelled from the spec: encode_prob of ethereum.guardian.utils (not in
the sources) quantizes a probability into one byte via the log-odds table;
modelled as the largest table entry not exceeding the probability. -/
def encode_prob (p : Q) : Nat := encGo 255 p

/-! ### Bets (strategy.py lines 75-115) -/

/-- A bet made by a guardian (class Bet of strategy.py).  The cached _hash
field is not modelled: Bet.hash is a function of the serialization, which
is what the cache always holds in the source. -/
structure Bet where
  index : Nat
  max_height : Nat
  probs : List Q
  blockhashes : List Hash
  stateroots : List (Option Hash)
  stateroot_probs : List Q
  prevhash : Hash
  seq : Nat
  sig : List Nat
deriving DecidableEq

/-- Modelled from the spec: the ABI encoding of a submitBet call produced
by casper_ct.encode (ethereum.abi is not part of the sources).  The
structure is the decoded argument tuple; the four-byte function selector
that deserialize strips (betdata[4:]) is kept implicit, and the two
probability vectors are stored as the byte strings produced by
encode_prob, exactly as in the wire format. -/
structure BetData where
  index : Nat
  max_height : Nat
  prob_bytes : List Nat
  blockhashes : List Hash
  stateroots : List (Option Hash)
  stateroot_prob_bytes : List Nat
  prevhash : Hash
  seq : Nat
  sig : List Nat
deriving DecidableEq

/-- Bet.serialize of strategy.py: ABI-encode the submitBet call with the
probability vectors mapped through encode_prob. -/
def Bet.serialize (b : Bet) : BetData :=
  ⟨b.index, b.max_height, b.probs.map encode_prob, b.blockhashes,
    b.stateroots, b.stateroot_probs.map encode_prob, b.prevhash, b.seq, b.sig⟩

/-- Bet.deserialize of strategy.py: decode the ABI tuple and map the
probability bytes through decode_prob. -/
def Bet.deserialize (d : BetData) : Bet :=
  ⟨d.index, d.max_height, d.prob_bytes.map decode_prob, d.blockhashes,
    d.stateroots, d.stateroot_prob_bytes.map decode_prob, d.prevhash, d.seq, d.sig⟩

/-- Length-prefixed byte chunk, used by the modelled flat encoding. -/
def chunkL (l : List Nat) : List Nat := l.length :: l

/-- Little-endian base-256 digits, with an explicit fuel bound to keep the
recursion structural. -/
def natDigits : Nat → Nat → List Nat
  | 0, _ => []
  | fuel + 1, n => if n = 0 then [] else n % 256 :: natDigits fuel (n / 256)

/-- Flat encoding of a natural number as length-prefixed base-256 digits. -/
def chunkN (n : Nat) : List Nat := chunkL (natDigits n n)

/-- Flat encoding of a list of byte strings. -/
def chunkLL (ls : List (List Nat)) : List Nat :=
  ls.length :: (ls.map chunkL).flatten

/-- Flat encoding of a list of optional byte strings (a nil entry gets the
tag 0, a present entry the tag 1). -/
def chunkLO (ls : List (Option Hash)) : List Nat :=
  ls.length :: (ls.map (fun x => match x with
    | none => [0]
    | some h => 1 :: chunkL h)).flatten

/-- Modelled from the spec: the byte string of the ABI-encoded submitBet
call (a four-byte selector followed by the encoded arguments). -/
def flattenBD (d : BetData) : List Nat :=
  [83, 117, 98, 66] ++ chunkN d.index ++ chunkN d.max_height ++
    chunkL d.prob_bytes ++ chunkLL d.blockhashes ++ chunkLO d.stateroots ++
    chunkL d.stateroot_prob_bytes ++ chunkL d.prevhash ++ chunkN d.seq ++
    chunkL d.sig

/-- Modelled from the spec: sha3/keccak over the serialized payload
(ethereum.utils.sha3 is not part of the sources); modelled as the payload
bytes themselves, which keeps hash a deterministic function of the
serialization. -/
def sha3BD (d : BetData) : Hash := flattenBD d

/-- Bet.hash of strategy.py: keccak of the serialization. -/
def Bet.hash (b : Bet) : Hash := sha3BD b.serialize

/-- Serialized bet as raw bytes (used where the source embeds
bet.serialize() into transaction data). -/
def Bet.payloadBytes (b : Bet) : List Nat := flattenBD b.serialize

/-! ### Error model

Python exceptions of the translated code: IndexError, KeyError, failed
assert statements, the bet-after-withdrawal slashing exception, and type
errors (AttributeError / rlp encoding of None). -/

inductive Err where
  | indexError
  | keyError
  | assertError
  | slashBetAfterWithdrawal
  | typeError
deriving DecidableEq

instance {ε α : Type} [DecidableEq ε] [DecidableEq α] :
    DecidableEq (Except ε α) := fun x y =>
  match x, y with
  | .ok a, .ok b =>
    if h : a = b then .isTrue (by rw [h])
    else .isFalse (fun hc => by cases hc; exact h rfl)
  | .error a, .error b =>
    if h : a = b then .isTrue (by rw [h])
    else .isFalse (fun hc => by cases hc; exact h rfl)
  | .ok _, .error _ => .isFalse (fun hc => Except.noConfusion hc)
  | .error _, .ok _ => .isFalse (fun hc => Except.noConfusion hc)

/-- Python list index resolution: out of range gives none, a negative
index in range resolves to i + n. -/
def pyIdx (n : Nat) (i : Int) : Option Nat :=
  if (n : Int) ≤ i ∨ i < -(n : Int) then none
  else if i < 0 then some (i + n).toNat else some i.toNat

/-- Python list read with negative-index semantics. -/
def pyGet {α : Type} (l : List α) (i : Int) : Option α :=
  match pyIdx l.length i with
  | some k => l[k]?
  | none => none

/-- Python list in-place element write with negative-index semantics;
none is an IndexError. -/
def pySet {α : Type} (l : List α) (i : Int) (v : α) : Option (List α) :=
  (pyIdx l.length i).map (fun k => l.set k v)

/-! ### Opinions (strategy.py lines 120-181) -/

/-- The current opinion of one guardian (class Opinion).  Array slots are
options: none is the Python None hole.  A stateroots slot assigned None by
a bet is indistinguishable from a never-assigned hole, exactly as in
Python. -/
structure Opinion where
  validation_code : List Nat
  index : Nat
  blockhashes : List (Option Hash)
  stateroots : List (Option Hash)
  probs : List (Option Q)
  stateroot_probs : List (Option Q)
  prevhash : Hash
  seq : Nat
  induction_height : Nat
  withdrawal_height : Int
  withdrawn : Bool
  deposit_size : Nat
deriving DecidableEq

/-- Opinion constructor defaults of strategy.py lines 121-132. -/
def Opinion.mkNew (valcode : List Nat) (index : Nat) (prevhash : Hash)
    (seq : Nat) (induction_height : Nat) : Opinion :=
  ⟨valcode, index, [], [], [], [], prevhash, seq, induction_height,
    2 ^ 100, false, 0⟩

/-- Opinion.max_height: length of the probs array minus one. -/
def Opinion.max_height (o : Opinion) : Int := (o.probs.length : Int) - 1

/-- One downward-indexed overwrite pass of process_bet: for each i the
element src[i] lands at Python index mh - i of dst (negative indices wrap,
an out-of-range write is an IndexError that keeps the writes made so
far). -/
def betWrite {α β : Type} (mh : Nat) (f : β → α) :
    List β → Nat → List α → Option Err × List α
  | [], _, dst => (none, dst)
  | x :: r, i, dst =>
    match pySet dst ((mh : Int) - i) (f x) with
    | some d2 => betWrite mh f r (i + 1) d2
    | none => (some .indexError, dst)

/-- Opinion.process_bet of strategy.py lines 134-168.  The pair holds the
Python return value (or the raised exception) together with the state of
the opinion when control leaves the method: a sequence-number mismatch
logs and returns False without touching the opinion; the prevhash
mismatch only logs; a bet after withdrawal raises the slashing exception;
a max_height of 2^256 - 1 records withdrawal; otherwise the four arrays
are extended in lockstep and overwritten downward from max_height. -/
def Opinion.process_bet (o : Opinion) (b : Bet) : Except Err Bool × Opinion :=
  if b.seq ≠ o.seq then (.ok false, o)
  else if o.withdrawn then (.error .slashBetAfterWithdrawal, o)
  else
    let o1 := { o with seq := b.seq + 1, prevhash := b.hash }
    if b.max_height = 2 ^ 256 - 1 then
      (.ok true, { o1 with withdrawn := true,
                           withdrawal_height := o1.max_height })
    else
      let ext := b.max_height + 1 - o1.probs.length
      let o2 := { o1 with
        probs := o1.probs ++ List.replicate ext none,
        blockhashes := o1.blockhashes ++ List.replicate ext none,
        stateroots := o1.stateroots ++ List.replicate ext none,
        stateroot_probs := o1.stateroot_probs ++ List.replicate ext none }
      match betWrite b.max_height some b.probs 0 o2.probs with
      | (some e, l) => (.error e, { o2 with probs := l })
      | (none, l) =>
        let o3 := { o2 with probs := l }
        match betWrite b.max_height some b.blockhashes 0 o3.blockhashes with
        | (some e, l2) => (.error e, { o3 with blockhashes := l2 })
        | (none, l2) =>
          let o4 := { o3 with blockhashes := l2 }
          match betWrite b.max_height id b.stateroots 0 o4.stateroots with
          | (some e, l3) => (.error e, { o4 with stateroots := l3 })
          | (none, l3) =>
            let o5 := { o4 with stateroots := l3 }
            match betWrite b.max_height some b.stateroot_probs 0
                o5.stateroot_probs with
            | (some e, l4) => (.error e, { o5 with stateroot_probs := l4 })
            | (none, l4) => (.ok true, { o5 with stateroot_probs := l4 })

/-- Opinion.get_prob: probs[h] when h is below the probs length, else
None. -/
def Opinion.get_prob (o : Opinion) (h : Nat) : Option Q :=
  if h < o.probs.length then o.probs.getD h none else none

/-- Opinion.get_blockhash: blockhashes[h] guarded by the length of probs
(as in the source). -/
def Opinion.get_blockhash (o : Opinion) (h : Nat) : Except Err (Option Hash) :=
  if h < o.probs.length then
    match o.blockhashes[h]? with
    | some v => .ok v
    | none => .error .indexError
  else .ok none

/-- Opinion.get_stateroot: stateroots[h] guarded by the length of probs
(as in the source). -/
def Opinion.get_stateroot (o : Opinion) (h : Nat) : Except Err (Option Hash) :=
  if h < o.probs.length then
    match o.stateroots[h]? with
    | some v => .ok v
    | none => .error .indexError
  else .ok none

/-! ### Persistent ordered sequence (class LDBList, strategy.py 275-319)

The backing key-value store of one namespace is modelled as the recorded
length plus a partial map from encoded integer key to decoded value; an
absent key is a KeyError of the store. -/

structure LDBList (V : Type) where
  length : Nat
  data : Nat → Option V

/-- LDBList.__getitem__ for an integer key: bounds check, negative-index
modulo, then the store read. -/
def LDBList.getitem {V : Type} (l : LDBList V) (i : Int) : Except Err V :=
  if i < -(l.length : Int) ∨ (l.length : Int) ≤ i then .error .indexError
  else
    match l.data (if i < 0 then (i % (l.length : Int)).toNat else i.toNat) with
    | some v => .ok v
    | none => .error .keyError

/-- LDBList.__setitem__ for an integer key: same bounds check and
negative-index modulo, then the store write. -/
def LDBList.setitem {V : Type} (l : LDBList V) (i : Int) (v : V) :
    Except Err (LDBList V) :=
  if i < -(l.length : Int) ∨ (l.length : Int) ≤ i then .error .indexError
  else
    .ok { l with data := fun j =>
      if j = (if i < 0 then (i % (l.length : Int)).toNat else i.toNat) then some v
      else l.data j }

/-- LDBList.append: bump the recorded length, then write at the old
length. -/
def LDBList.appendV {V : Type} (l : LDBList V) (v : V) : LDBList V :=
  { length := l.length + 1,
    data := fun j => if j = l.length then some v else l.data j }

/-! ### Association lists

Python dicts (and the keyed LDBDict) are modelled as insertion-ordered
association lists: an update of an existing key keeps its position, a new
key is appended, exactly the iteration order of the source maps. -/

def alGet {κ ν : Type} [DecidableEq κ] : List (κ × ν) → κ → Option ν
  | [], _ => none
  | (k2, v) :: r, k => if k2 = k then some v else alGet r k

def alSet {κ ν : Type} [DecidableEq κ] : List (κ × ν) → κ → ν → List (κ × ν)
  | [], k, v => [(k, v)]
  | (k2, w) :: r, k, v =>
    if k2 = k then (k2, v) :: r else (k2, w) :: alSet r k v

def alDel {κ ν : Type} [DecidableEq κ] : List (κ × ν) → κ → List (κ × ν)
  | [], _ => []
  | (k2, w) :: r, k => if k2 = k then r else (k2, w) :: alDel r k

/-! ### Blocks, transactions, network messages

Block, Transaction (ethereum.serenity_blocks) and the network message
envelope (ethereum.guardian.network) are collaborators outside the
sources; they are modelled structurally with the fields the strategy code
reads.  A block carries its externally computed hash, its rlp-encoded
header bytes, its transaction groups and the left_bound summary of each
group. -/

structure Tx where
  toAddr : List Nat
  gas : Nat
  data : List Nat
  hash : Hash
deriving DecidableEq

structure Block where
  number : Nat
  hash : Hash
  header : List Nat
  txgroups : List (List Tx)
  summaries : List Nat
deriving DecidableEq

/-- Entries of the heterogeneous hash-keyed objects cache. -/
inductive Obj where
  | blk (b : Block)
  | bet (b : Bet)
  | tx (t : Tx)
deriving DecidableEq

/-- Typed network messages (NM_* of ethereum.guardian.network); GETBLOCK
keeps its raw payload because the handler disambiguates hash vs height by
the payload length. -/
inductive NetMsg where
  | blockMsg (b : Block)
  | betMsg (d : BetData)
  | betRequest (index : Nat) (seq : Nat)
  | txMsg (t : Tx)
  | getblock (arg : List Nat)
  | getblocks (blknum : Nat)
  | listMsg (ms : List NetMsg)
  | faucet (addr : List Nat) (amount : Nat)

/-- An outbound network call (broadcast, send_to_one or direct_send). -/
inductive OutMsg where
  | broadcast (m : NetMsg)
  | toOne (m : NetMsg)
  | direct (m : NetMsg)

/-- Keys of the last_asked_for_block map.  The source looks entries up by
block hash but stores them under the integer height, so both key kinds
coexist in the map (their rlp encodings differ). -/
inductive GBKey where
  | hsh (h : Hash)
  | num (n : Nat)
deriving DecidableEq

/-- Modelled from the spec: the Casper ABI payload of a slashBets call. -/
def slashBetsData (b1 b2 : List Nat) : List Nat :=
  [115, 66, 101, 116] ++ chunkL b1 ++ chunkL b2

/-- Modelled from the spec: the Casper ABI payload of a slashBlocks
call. -/
def slashBlocksData (b1 b2 : List Nat) : List Nat :=
  [115, 66, 108, 107] ++ chunkL b1 ++ chunkL b2

/-- Modelled from the spec: the Casper ABI payload of a join call. -/
def joinData (vcode : List Nat) : List Nat :=
  [106, 111, 105, 110] ++ chunkL vcode

/-- big_endian_to_int of ethereum.utils. -/
def beToNat (l : List Nat) : Nat := l.foldl (fun a b => a * 256 + b) 0

/-- A state object handle: the root passed to the State constructor (the
source occasionally passes a None root through). -/
abbrev CState := Option Hash

/-- Position of a transaction inside a block:
(blknum, blkhash, groupindex, txindex). -/
abbrev TxPos := Nat × Hash × Nat × Nat

/-- A finalized position, augmented with the decoded log payload. -/
abbrev TxPosL := Nat × Hash × Nat × Nat × List Nat

/-! ### The engine state (class defaultBetStrategy) -/

/-- The mutable state of defaultBetStrategy: the durable collections, the
in-memory dicts, the scalar cursors and the clock, plus the list of
messages handed to the network during the current operation. -/
structure NodeState where
  now : Q
  addr : List Nat
  guardian_signups : Nat
  opinions : List (Nat × Opinion)
  bets : List (Nat × List (Nat × Bet))
  probs : List Q
  finalized_hashes : List (Option Hash)
  stateroots : List (Option Hash)
  counters : List Nat
  highest_bet_processed : List (Nat × Int)
  time_received : List (Hash × Q)
  objects : List (Hash × Obj)
  blocks : List (Option Block)
  last_asked_for_block : List (GBKey × Q)
  last_asked_for_bets : List (Nat × Q)
  txpool : List (Hash × Tx)
  unconfirmed_txindex : List (Hash × Tx × List TxPos)
  finalized_txindex : List (Hash × Tx × List TxPosL)
  tx_exceptions : List (Hash × Nat)
  last_bet_made : Q
  last_time_sent_getblocks : Q
  join_at_block : Int
  last_faucet_request : Int
  index : Int
  former_index : Option Int
  last_block_produced : Option Int
  next_block_to_produce : Option Int
  prevhash : Hash
  seq : Nat
  calc_state_roots_from : Nat
  max_finalized_height : Int
  genesis_state_root : Hash
  genesis_time : Q
  induction_height : Nat
  withdrawn : Bool
  recently_discovered_blocks : List Nat
  proposers : List Nat
  tracked_tx_hashes : List Hash
  min_gas_price : Nat
  double_block_suicide : Nat
  double_bet_suicide : Nat
  _last_nonce : Int
  _joined_at_block : Int
  out : List OutMsg

/-- Oracle bundling every collaborator outside the sources: Casper reads,
the EVM state transition, signing, hashing of externally built objects,
the betting heuristic bet_at_height (ethereum.default_betting_strategy),
the network environment and the protocol constants of ethereum.config. -/
structure Oracle where
  getGuardianSignups : CState → Nat
  getNextGuardianIndex : CState → Nat
  getGuardianCounter : CState → Nat → Nat
  getGuardianInductionHeight : CState → Nat → Nat
  getGuardianAddress : CState → Nat → List Nat
  getGuardianValidationCode : CState → Nat → List Nat
  getGuardianDeposit : CState → Nat → Nat
  getGuardianSeq : CState → Nat → Nat
  get_guardian_index : CState → Nat → Nat
  is_block_valid : CState → Block → Bool
  bet_at_height : NodeState → Nat → Q × Option Hash × Bool
  transition : CState → Option Block → Hash
  blknum_of : CState → Nat
  sign_bet : Bet → List Nat
  sign_block : List Tx → Nat → List Nat → Block
  txHash : Nat → List Nat → Hash
  mk_transaction : Int → List Nat → Nat → List Nat → Tx
  mk_validation_code : List Nat
  nonce_of : CState → List Nat → Int
  balance : CState → List Nat → Nat
  tx_output : CState → Tx → Option (List Nat)
  account_code_ok : CState → Tx → Bool
  logresult : CState → Nat → Nat → Nat
  logdata : CState → Nat → Nat → List Nat
  shuffle : List (Nat × Opinion) → List (Nat × Opinion)
  peers : Bool
  ENTER_EXIT_DELAY : Nat
  VALIDATOR_ROUNDS : Nat
  BLKTIME : Q
  GASLIMIT : Nat
  CASPER : List Nat
  ADDR_BYTES : Nat

/-! ### The operation monad

Every handler is a function of the node state returning the Python result
or the raised exception together with the state when control leaves the
handler; mutations made before an exception are kept, as they are by the
in-memory and LevelDB-backed structures of the source. -/

def M (α : Type) : Type := NodeState → Except Err α × NodeState

instance : Monad M where
  pure a := fun s => (.ok a, s)
  bind m k := fun s =>
    match m s with
    | (.ok a, s1) => k a s1
    | (.error e, s1) => (.error e, s1)

def mGet : M NodeState := fun s => (.ok s, s)

def mMod (f : NodeState → NodeState) : M Unit := fun s => (.ok (), f s)

def mThrow {α : Type} (e : Err) : M α := fun s => (.error e, s)

/-- A failed Python assert statement. -/
def mAssert (b : Bool) : M Unit := if b then pure () else mThrow .assertError

def mOfOption {α : Type} (e : Err) : Option α → M α
  | some a => pure a
  | none => mThrow e

/-- Sequential for-loop over a list. -/
def mFor {γ : Type} : List γ → (γ → M Unit) → M Unit
  | [], _ => pure ()
  | x :: r, f => do
    f x
    mFor r f

/-- Sequential fold over a list. -/
def mFold {γ δ : Type} : List γ → (γ → δ → M δ) → δ → M δ
  | [], _, init => pure init
  | x :: r, f, init => do
    let a ← f x init
    mFold r f a

/-- Collect a list of lookups, raising KeyError on the first miss. -/
def mCollect {α : Type} : List (Option α) → M (List α)
  | [] => pure []
  | some a :: r => do
    let tl ← mCollect r
    pure (a :: tl)
  | none :: _ => mThrow .keyError

/-- Record an outbound network call. -/
def send (m : OutMsg) : M Unit :=
  mMod fun s => { s with out := s.out ++ [m] }

/-- get_state_at_height: stateroots[h] for a non-negative height (an
IndexError if out of range), the genesis state root otherwise. -/
def stateAtM (h : Int) : M CState := do
  let s ← mGet
  if 0 ≤ h then mOfOption .indexError (pyGet s.stateroots h)
  else pure (some s.genesis_state_root)

/-- get_optimistic_state: the state at calc_state_roots_from - 1. -/
def get_optimistic_state : M CState := do
  let s ← mGet
  stateAtM ((s.calc_state_roots_from : Int) - 1)

/-- get_finalized_state: the state at
min(calc_state_roots_from - 1, max_finalized_height). -/
def get_finalized_state : M CState := do
  let s ← mGet
  stateAtM (min ((s.calc_state_roots_from : Int) - 1) s.max_finalized_height)

/-- time_received.get(h, 0). -/
def timeGet (s : NodeState) (h : Hash) : Q :=
  (alGet s.time_received h).getD 0

/-- last_asked_for_bets.get(i, 0). -/
def lafbGet (s : NodeState) (i : Nat) : Q :=
  (alGet s.last_asked_for_bets i).getD 0

/-- Lookup of bets[index][q] with a possibly negative sequence number. -/
def betsSeqGet (bmap : List (Nat × Bet)) (q : Int) : Option Bet :=
  if q < 0 then none else alGet bmap q.toNat

/-! ### add_transaction (strategy.py 993-1001) -/

def add_transaction (t : Tx) (track : Bool) : M Unit := do
  let s ← mGet
  if alGet s.objects t.hash = none ∨ timeGet s t.hash < s.now - 15 then do
    mMod fun s1 => { s1 with
      objects := alSet s1.objects t.hash (.tx t),
      time_received := alSet s1.time_received t.hash s1.now,
      txpool := alSet s1.txpool t.hash t }
    (if track then
      mMod fun s1 => { s1 with
        tracked_tx_hashes := s1.tracked_tx_hashes ++ [t.hash] }
     else pure ())
    send (.broadcast (.txMsg t))
  else pure ()

/-! ### add_proposers (strategy.py 571-582) -/

/-- Backward scan for the highest height with a usable state root. -/
def apScanM : Nat → Int → M Int
  | 0, h => pure h
  | fuel + 1, h => do
    let s ← mGet
    if 0 ≤ h then
      match pyGet s.stateroots h with
      | none => mThrow .indexError
      | some e =>
        if e = none ∨ e = some zeroHash then apScanM fuel (h - 1) else pure h
    else pure h

/-- The proposer-extension loop with its early return on own index. -/
def apLoop (oc : Oracle) (cst : CState) : Nat → M Unit
  | 0 => mMod fun s => { s with next_block_to_produce := none }
  | fuel + 1 => do
    let s ← mGet
    let h := s.proposers.length
    let g := oc.get_guardian_index cst h
    mMod fun s1 => { s1 with proposers := s1.proposers ++ [g] }
    let s2 ← mGet
    if (g : Int) = s2.index then
      mMod fun s3 => { s3 with next_block_to_produce := some (h : Int) }
    else apLoop oc cst fuel

def add_proposers (oc : Oracle) : M Unit := do
  let s ← mGet
  let h ← apScanM s.finalized_hashes.length ((s.finalized_hashes.length : Int) - 1)
  let s1 ← mGet
  let cst ← (if 0 ≤ h then mOfOption .indexError (pyGet s1.stateroots h)
             else pure (some s1.genesis_state_root))
  let maxh : Int := s1.max_finalized_height + oc.ENTER_EXIT_DELAY - 1
  apLoop oc cst (maxh - s1.proposers.length).toNat

/-! ### update_guardian_set (strategy.py 653-673) -/

def ugsStep (oc : Oracle) (cst : CState) (i : Nat) : M Unit := do
  let s ← mGet
  let ctr := oc.getGuardianCounter cst i
  if s.counters.contains ctr then pure ()
  else do
    mMod fun s1 => { s1 with counters := s1.counters ++ [ctr] }
    let ih := oc.getGuardianInductionHeight cst i
    let valaddr := oc.getGuardianAddress cst i
    let valcode := oc.getGuardianValidationCode cst i
    let dep := oc.getGuardianDeposit cst i
    mMod fun s1 => { s1 with
      opinions := alSet s1.opinions i
        { Opinion.mkNew valcode i zeroHash 0 ih with deposit_size := dep },
      bets := alSet s1.bets i [],
      highest_bet_processed := alSet s1.highest_bet_processed i (-1) }
    let s1 ← mGet
    if valaddr = s1.addr then do
      mMod fun s2 => { s2 with index := (i : Int) }
      add_proposers oc
      mMod fun s2 => { s2 with induction_height := ih }
    else pure ()

def update_guardian_set (oc : Oracle) (cst : CState) : M Unit :=
  mFor (List.range (oc.getNextGuardianIndex cst)) (ugsStep oc cst)

/-! ### get_nonce (strategy.py 535-546) -/

def get_nonce (oc : Oracle) (optimistic : Bool) : M Int := do
  let cst ← (if optimistic then get_optimistic_state else get_finalized_state)
  let s ← mGet
  let nonce := oc.nonce_of cst s.addr
  let nonce := if nonce ≤ s._last_nonce then s._last_nonce + 1 else nonce
  mMod fun s1 => { s1 with _last_nonce := nonce }
  pure nonce

/-! ### join (strategy.py 548-568) -/

def join (oc : Oracle) : M Unit := do
  let txdata := joinData oc.mk_validation_code
  let nonce ← get_nonce oc true
  let t := oc.mk_transaction nonce oc.CASPER (1500 * 10 ^ 18) txdata
  add_transaction t false
  mMod fun s1 => { s1 with _joined_at_block := (s1.blocks.length : Int) }

/-! ### recalc_state_roots (strategy.py 735-755) -/

/-- The bounded recomputation loop: assert the running state sits at
height h, apply the block (or nil when the own probability is below 1/2),
store the fresh root and assert the post-transition height. -/
def rsrLoop (oc : Oracle) : CState → List Nat → M Unit
  | _, [] => pure ()
  | cst, h :: rest => do
    if oc.blknum_of cst ≠ h then mThrow .assertError
    else do
      let s ← mGet
      let p ← mOfOption .indexError (pyGet s.probs (h : Int))
      let prob := if p.num = 0 then qHalf else p
      let blk ← mOfOption .indexError (pyGet s.blocks (h : Int))
      let newRoot := oc.transition cst (if prob ≥ qHalf then blk else none)
      let sr2 ← mOfOption .indexError (pySet s.stateroots (h : Int) (some newRoot))
      mMod fun s1 => { s1 with stateroots := sr2 }
      if oc.blknum_of (some newRoot) ≠ h + 1 then mThrow .assertError
      else rsrLoop oc (some newRoot) rest

/-- Mark the remaining heights as not yet computed. -/
def rsrZero : List Nat → M Unit
  | [] => pure ()
  | h :: rest => do
    let s ← mGet
    let sr2 ← mOfOption .indexError (pySet s.stateroots (h : Int) (some zeroHash))
    mMod fun s1 => { s1 with stateroots := sr2 }
    rsrZero rest

/-- The closing integrity check: no zero or nil root below the new
cursor. -/
def rsrCheckLoop : List Nat → M Unit
  | [] => pure ()
  | i :: rest => do
    let s ← mGet
    let e ← mOfOption .indexError (pyGet s.stateroots (i : Int))
    if e = some zeroHash ∨ e = none then mThrow .assertError
    else rsrCheckLoop rest

/-- The recalc_limit selection of strategy.py line 736. -/
def recalc_limit_of (s : NodeState) : Nat :=
  if (s.calc_state_roots_from : Int) > (s.blocks.length : Int) - 20 then MAX_RECALC
  else MAX_LONG_RECALC

def recalc_state_roots (oc : Oracle) : M Unit := do
  let s ← mGet
  let n := s.blocks.length
  let recalc_limit := recalc_limit_of s
  let frm := s.calc_state_roots_from
  let cst ← stateAtM ((frm : Int) - 1)
  rsrLoop oc cst ((List.range' frm (n - frm)).take recalc_limit)
  rsrZero (List.range' (frm + recalc_limit) (n - (frm + recalc_limit)))
  mMod fun s1 => { s1 with calc_state_roots_from := min (frm + recalc_limit) n }
  rsrCheckLoop (List.range (min (frm + recalc_limit) n))

/-! ### receive_bet (strategy.py 675-714) -/

/-- The contiguous-prefix processing loop: while the next sequence number
is buffered, feed it to the opinion and assert the True return. -/
def rbLoop (index : Nat) : Nat → Nat → M Nat
  | 0, proc => pure proc
  | fuel + 1, proc => do
    let s ← mGet
    let bmap ← mOfOption .keyError (alGet s.bets index)
    let hbp ← mOfOption .keyError (alGet s.highest_bet_processed index)
    match betsSeqGet bmap (hbp + 1) with
    | none => pure proc
    | some bb => do
      let op ← mOfOption .keyError (alGet s.opinions index)
      let pr := op.process_bet bb
      mMod fun s1 => { s1 with opinions := alSet s1.opinions index pr.2 }
      match pr.1 with
      | .error e => mThrow e
      | .ok r => do
        mAssert r
        mMod fun s1 => { s1 with
          highest_bet_processed := alSet s1.highest_bet_processed index (hbp + 1) }
        rbLoop index fuel (proc + 1)

/-- The sanity checks after the processing loop. -/
def rbSanity (index : Nat) : M Unit := do
  let s ← mGet
  let bmap ← mOfOption .keyError (alGet s.bets index)
  let hbp ← mOfOption .keyError (alGet s.highest_bet_processed index)
  mAssert ((List.range (hbp + 1).toNat).all (fun i => (alGet bmap i).isSome))
  let op ← mOfOption .keyError (alGet s.opinions index)
  mAssert (decide ((op.seq : Int) = hbp + 1))

/-- The double-bet slashing transaction of strategy.py 688-691: gas
500000 + 1000 per payload byte of each serialization, calling
slashBets(bytes1, bytes2) on the Casper contract. -/
def slashTxOf (oc : Oracle) (stored b : Bet) : Tx :=
  let bytes1 := stored.payloadBytes
  let bytes2 := b.payloadBytes
  let gasAmt := 500000 + 1000 * bytes1.length + 1000 * bytes2.length
  let d := slashBetsData bytes1 bytes2
  { toAddr := oc.CASPER, gas := gasAmt, data := d,
    hash := oc.txHash gasAmt d }

/-- The remainder of receive_bet after the double-bet check (strategy.py
694-714): record the bet, process the contiguous prefix, run the sanity
checks, and ask for missing bets when nothing was processed. -/
def rbTail (b : Bet) : M Unit := do
  let s2 ← mGet
  let bmap2 ← mOfOption .keyError (alGet s2.bets b.index)
  mMod fun s3 => { s3 with bets := alSet s3.bets b.index (alSet bmap2 b.seq b) }
  let s3 ← mGet
  let bmap3 ← mOfOption .keyError (alGet s3.bets b.index)
  let proc ← rbLoop b.index (bmap3.length + 1) 0
  rbSanity b.index
  if proc = 0 then do
    let s4 ← mGet
    if lafbGet s4 b.index < s4.now + 10 then do
      let hbp ← mOfOption .keyError (alGet s4.highest_bet_processed b.index)
      send (.toOne (.betRequest b.index (hbp + 1).toNat))
      mMod fun s5 => { s5 with
        last_asked_for_bets := alSet s5.last_asked_for_bets b.index s5.now }
    else pure ()
  else pure ()

def receive_bet (oc : Oracle) (b : Bet) : M Unit := do
  let s ← mGet
  if (alGet s.objects b.hash).isSome ∨ alGet s.opinions b.index = none then
    pure ()
  else do
    mMod fun s1 => { s1 with
      objects := alSet s1.objects b.hash (.bet b),
      time_received := alSet s1.time_received b.hash s1.now }
    send (.broadcast (.betMsg b.serialize))
    let s1 ← mGet
    let bmap ← mOfOption .keyError (alGet s1.bets b.index)
    (match alGet bmap b.seq with
     | some stored => add_transaction (slashTxOf oc stored b) true
     | none => pure ())
    rbTail b

/-! ### mkbet (strategy.py 774-883) -/

/-- The GETBLOCK request branch of the mkbet height loop (strategy.py
796-801): the lookup key is the preferred block hash, the comparison is
against now + 12, and the timestamp is stored under the integer height. -/
def mkbetAsk (h : Nat) (nbh : Option Hash) (ask : Bool) : M Unit := do
  if ask then
    match nbh with
    | none => mThrow .typeError
    | some hh => do
      let s ← mGet
      let doit :=
        match alGet s.last_asked_for_block (.hsh hh) with
        | none => true
        | some t => decide (t < s.now + 12)
      if doit then do
        send (.broadcast (.getblock hh))
        mMod fun s1 => { s1 with
          last_asked_for_block := alSet s1.last_asked_for_block (.num h) s1.now }
      else pure ()
  else pure ()

/-- The block-selection switch of the mkbet height loop (strategy.py
802-810). -/
def mkbetSwitch (h : Nat) (nbh : Option Hash) : M Unit := do
  let s ← mGet
  let blkE ← mOfOption .indexError (pyGet s.blocks (h : Int))
  match blkE with
  | none => pure ()
  | some blk =>
    if nbh ≠ some blk.hash then
      match nbh with
      | none => pure ()
      | some hh =>
        if hh = zeroHash then pure ()
        else
          match alGet s.objects hh with
          | none => pure ()
          | some (.blk b2) => do
            mAssert (b2.number = h)
            let s1 ← mGet
            let bl2 ← mOfOption .indexError (pySet s1.blocks (h : Int) (some b2))
            mMod fun s2 => { s2 with
              blocks := bl2,
              recently_discovered_blocks := s2.recently_discovered_blocks ++ [h] }
          | some _ => mThrow .typeError
    else pure ()

/-- The max_finalized_height advance of the mkbet height loop (strategy.py
835-840): the while loop body runs at most once because the assignment
falsifies its own guard, and every tenth height refreshes the deposit
sizes from the optimistic state. -/
def mkbetFinalize (oc : Oracle) (h : Nat) : M Unit := do
  let s ← mGet
  if (h : Int) = s.max_finalized_height + 1 then do
    mMod fun s1 => { s1 with max_finalized_height := (h : Int) }
    if h % 10 = 0 then do
      let cst ← get_optimistic_state
      mMod fun s2 =>
        let refreshed := s2.opinions.map (fun e =>
          (e.1, { e.2 with deposit_size := oc.getGuardianDeposit cst e.1 }))
        { s2 with opinions := refreshed }
    else pure ()
  else pure ()

/-- The per-height body of the mkbet loop (strategy.py 787-840), driven by
bet_at_height; accumulates the probabilities bet and the state-root
probability sequence srp. -/
def mkbetLoop (oc : Oracle) :
    List Nat → List Q → List Q → Q → M (List Q × List Q)
  | [], pu, srp, _ => pure (pu, srp)
  | h :: rest, pu, srp, acc => do
    let s ← mGet
    let _blkE ← mOfOption .indexError (pyGet s.blocks (h : Int))
    let r := oc.bet_at_height s h
    let prob := r.1
    let nbh := r.2.1
    let ask := r.2.2
    mkbetAsk h nbh ask
    mkbetSwitch h nbh
    let s1 ← mGet
    let ph ← mOfOption .indexError (pyGet s1.probs (h : Int))
    (if ((prob - qHalf) * (ph - qHalf) ≤ 0 ∨
         (ph ≥ qHalf ∧ h ∈ s1.recently_discovered_blocks)) ∧
        h < s1.calc_state_roots_from then
      mMod fun s2 => { s2 with calc_state_roots_from := h }
     else pure ())
    let s2 ← mGet
    let pl ← mOfOption .indexError (pySet s2.probs (h : Int) prob)
    mMod fun s3 => { s3 with probs := pl }
    let acc2 := if acc = FINALITY_HIGH ∧ prob ≥ FINALITY_HIGH then acc
                else acc * prob
    let srpv := if acc = FINALITY_HIGH ∧ prob ≥ FINALITY_HIGH then FINALITY_HIGH
                else qmax (acc * prob) FINALITY_LOW
    (if prob < FINALITY_LOW ∨ prob > FINALITY_HIGH then do
      let s3 ← mGet
      let fh ← (if prob > FINALITY_HIGH then do
          let blkE2 ← mOfOption .indexError (pyGet s3.blocks (h : Int))
          match blkE2 with
          | some blk => pure blk.hash
          | none => mThrow .typeError
        else pure zeroHash)
      let s4 ← mGet
      let fl ← mOfOption .indexError (pySet s4.finalized_hashes (h : Int) (some fh))
      mMod fun s5 => { s5 with finalized_hashes := fl }
      mkbetFinalize oc h
     else pure ())
    mkbetLoop oc rest (pu ++ [prob]) (srp ++ [srpv]) acc2
  termination_by hs _ _ _ => hs.length

/-- The coercion pass over srp in the emitted bet (strategy.py 862): the
element at enumeration position i keeps its value unless stateroots[i] is
the zero hash, in which case it is forced to FINALITY_LOW.  Note the index
into stateroots is the enumeration position itself. -/
def coerceSrp (stateroots : List (Option Hash)) : List Q → Nat → Except Err (List Q)
  | [], _ => .ok []
  | x :: r, i =>
    match pyGet stateroots (i : Int) with
    | none => .error .indexError
    | some e =>
      let v := if e ≠ some zeroHash then x else FINALITY_LOW
      match coerceSrp stateroots r (i + 1) with
      | .ok tl => .ok (v :: tl)
      | .error err => .error err

/-- Construction of the emitted bet (strategy.py 850-866), evaluated on
the state after the loop and the state-root recomputation; rootstart was
computed before the recomputation and is passed in. -/
def mkbetBuildBet (s : NodeState) (srp : List Q) (sign_from : Nat)
    (rootstart : Nat) : Except Err Bet :=
  match s.recently_discovered_blocks.min? with
  | none => .error .typeError
  | some mrdb =>
    let blockstart := max mrdb s.induction_height
    let probstart := min (min (max sign_from s.induction_height) blockstart) rootstart
    let srprobstart := max sign_from s.induction_height - sign_from
    if ¬ ((srp.drop srprobstart).length ≤ (s.probs.drop probstart).length) then
      .error .assertError
    else if ¬ (probstart ≤ srprobstart + sign_from) then .error .assertError
    else
      match coerceSrp s.stateroots srp 0 with
      | .error e => .error e
      | .ok co =>
        .ok { index := s.index.toNat,
              max_height := s.blocks.length - 1,
              probs := (s.probs.drop probstart).reverse,
              blockhashes := ((s.blocks.drop blockstart).map
                (fun x => match x with
                  | some b => b.hash
                  | none => zeroHash)).reverse,
              stateroots := (s.stateroots.drop rootstart).reverse,
              stateroot_probs := (co.drop srprobstart).reverse,
              prevhash := s.prevhash,
              seq := s.seq,
              sig := [] }

def mkbet (oc : Oracle) : M Unit := do
  let s ← mGet
  if s.now < s.last_bet_made + 2 then pure ()
  else do
    mMod fun s1 => { s1 with last_bet_made := s1.now }
    let s1 ← mGet
    let sign_from := s1.max_finalized_height.toNat
    let lp ← mkbetLoop oc
      (List.range' sign_from (s1.blocks.length - sign_from)) [] [] FINALITY_HIGH
    let srp := lp.2
    let s2 ← mGet
    let rootstart := max s2.calc_state_roots_from s2.induction_height
    recalc_state_roots oc
    let s3 ← mGet
    mAssert (s3.probs.length == s3.blocks.length &&
             s3.blocks.length == s3.stateroots.length)
    if 0 ≤ s3.index ∧ s3.induction_height < s3.blocks.length ∧
        s3.withdrawn = false ∧ s3.recently_discovered_blocks ≠ [] then do
      match mkbetBuildBet s3 srp sign_from rootstart with
      | .error e => mThrow e
      | .ok bet0 => do
        let signed := { bet0 with sig := oc.sign_bet bet0 }
        mMod fun s4 => { s4 with recently_discovered_blocks := [] }
        mMod fun s4 => { s4 with prevhash := signed.hash, seq := s4.seq + 1 }
        send (.broadcast (.betMsg signed.serialize))
        receive_bet oc signed
        let s5 ← mGet
        if s5.seq > s5.double_bet_suicide ∧ signed.probs ≠ [] then do
          let pert := { signed with probs :=
            match signed.probs with
            | p :: r => (p * qmk 9 10) :: r
            | [] => [] }
          let signed2 := { pert with sig := oc.sign_bet pert }
          send (.broadcast (.betMsg signed2.serialize))
        else pure ()
    else pure ()

/-! ### receive_block (strategy.py 584-650) -/

/-- Transactions of a block with their group and in-group positions. -/
def blockTxEntries (blk : Block) : List (Tx × Nat × Nat) :=
  (blk.txgroups.enum.map (fun gi =>
    gi.2.enum.map (fun tj => (tj.2, gi.1, tj.1)))).flatten

def receive_block (oc : Oracle) (blk : Block) : M Unit := do
  let s ← mGet
  if (alGet s.objects blk.hash).isSome then pure ()
  else do
    mMod fun s1 =>
      let ext := blk.number + 1 - s1.blocks.length
      { s1 with blocks := s1.blocks ++ List.replicate ext none,
                stateroots := s1.stateroots ++ List.replicate ext none,
                finalized_hashes := s1.finalized_hashes ++ List.replicate ext none,
                probs := s1.probs ++ List.replicate ext qHalf }
    let s1 ← mGet
    if ((blk.number : Int)) ≥ (s1.calc_state_roots_from : Int) + oc.ENTER_EXIT_DELAY - 1 then do
      if s1.last_time_sent_getblocks < s1.now - 5 then do
        send (.broadcast (.getblocks (s1.max_finalized_height + 1).toNat))
        mMod fun s2 => { s2 with last_time_sent_getblocks := s2.now }
      else pure ()
    else do
      let cst ← stateAtM ((blk.number : Int) - oc.ENTER_EXIT_DELAY + 1)
      if oc.is_block_valid cst blk = false then pure ()
      else do
        let s2 ← mGet
        let cst2 ← stateAtM (min s2.max_finalized_height ((s2.calc_state_roots_from : Int) - 1))
        let vs := oc.getGuardianSignups cst2
        (if vs > s2.guardian_signups then do
          mMod fun s3 => { s3 with guardian_signups := vs }
          update_guardian_set oc cst2
         else pure ())
        let s3 ← mGet
        let cur ← mOfOption .indexError (pyGet s3.blocks (blk.number : Int))
        (match cur with
         | none => do
           let bl2 ← mOfOption .indexError (pySet s3.blocks (blk.number : Int) (some blk))
           mMod fun s4 => { s4 with blocks := bl2 }
         | some curblk => do
           let bytes1 := curblk.header
           let bytes2 := blk.header
           let gasAmt := 500000 + 1000 * bytes1.length + 1000 * bytes2.length
           let d := slashBlocksData bytes1 bytes2
           add_transaction
             { toAddr := oc.CASPER, gas := gasAmt, data := d,
               hash := oc.txHash gasAmt d } true)
        mMod fun s4 => { s4 with
          objects := alSet s4.objects blk.hash (.blk blk),
          time_received := alSet s4.time_received blk.hash s4.now,
          recently_discovered_blocks := s4.recently_discovered_blocks ++ [blk.number] }
        mFor (blockTxEntries blk) (fun e => do
          let s4 ← mGet
          if (alGet s4.finalized_txindex e.1.hash).isSome then pure ()
          else do
            let cur2 := (alGet s4.unconfirmed_txindex e.1.hash).getD (e.1, [])
            mMod fun s5 => { s5 with
              unconfirmed_txindex := alSet s5.unconfirmed_txindex e.1.hash
                (cur2.1, cur2.2 ++ [(blk.number, blk.hash, e.2.1, e.2.2)]) })
        send (.broadcast (.blockMsg blk))
        let s5 ← mGet
        if s5.index % (oc.VALIDATOR_ROUNDS : Int) =
            (blk.number : Int) % (oc.VALIDATOR_ROUNDS : Int) then mkbet oc
        else pure ()

/-! ### should_i_include_transaction (strategy.py 962-991) -/

def should_i_include_transaction (oc : Oracle) (t : Tx) : M Bool := do
  let cst ← get_optimistic_state
  match oc.tx_output cst t with
  | none => pure false
  | some output =>
    if oc.account_code_ok cst t = false then pure false
    else if output.length < 32 then pure false
    else do
      let s ← mGet
      if beToNat (output.take 32) < s.min_gas_price then pure false
      else pure true

/-! ### make_block (strategy.py 1003-1134) -/

/-- Transaction pool selection loop; the break on an over-gas transaction
exits the whole loop. -/
def mbTxSel (s : NodeState) : List (Hash × Tx) → Nat → List Tx → List Tx × Nat
  | [], gas, txs => (txs, gas)
  | (h, t) :: rest, gas, txs =>
    if (alGet s.unconfirmed_txindex h).isNone ∧ (alGet s.finalized_txindex h).isNone then
      if t.gas > gas then (txs, gas)
      else mbTxSel s rest (gas - t.gas) (txs ++ [t])
    else mbTxSel s rest gas txs

/-- Forward scan for the first not-yet-computed state root (strategy.py
1020-1022). -/
def mbScan (roots : List (Option Hash)) : Nat → Nat → Nat
  | 0, h => h
  | fuel + 1, h =>
    match roots[h]? with
    | some (some r) => if r = zeroHash then h else mbScan roots fuel (h + 1)
    | _ => h

/-- Bet-inclusion loop for one guardian (strategy.py 1035-1046); the
break on an over-gas bet exits only this inner loop. -/
def mbBetLoop (oc : Oracle) (i : Nat) : Nat → Nat → Nat → List Tx → M (List Tx × Nat)
  | 0, _, gas, txs => pure (txs, gas)
  | fuel + 1, bet_height, gas, txs => do
    let s ← mGet
    let bmap ← mOfOption .keyError (alGet s.bets i)
    match alGet bmap bet_height with
    | none => pure (txs, gas)
    | some bb => do
      let d := bb.payloadBytes
      let gasAmt := 200000 + 6600 * bb.probs.length +
        10000 * (bb.blockhashes.length + bb.stateroots.length)
      let t : Tx := { toAddr := oc.CASPER, gas := gasAmt, data := d,
                      hash := oc.txHash gasAmt d }
      (if bb.max_height = 2 ^ 256 - 1 then
        mMod fun s1 => { s1 with tracked_tx_hashes := s1.tracked_tx_hashes ++ [t.hash] }
       else pure ())
      if t.gas > gas then pure (txs, gas)
      else mbBetLoop oc i fuel (bet_height + 1) (gas - t.gas) (txs ++ [t])

/-- Per-opinion step of the randomized bet-publication pass (strategy.py
1032-1049). -/
def mbOpStep (oc : Oracle) (cst : CState) (e : Nat × Opinion)
    (acc : List Tx × Nat) : M (List Tx × Nat) := do
  let latest_bet := oc.getGuardianSeq cst e.1
  let s ← mGet
  let bmap ← mOfOption .keyError (alGet s.bets e.1)
  let r ← mbBetLoop oc e.1 (bmap.length + 1) latest_bet acc.2 acc.1
  (if e.2.seq < latest_bet then do
    send (.toOne (.betRequest e.1 (e.2.seq + 1)))
    mMod fun s1 => { s1 with
      last_asked_for_bets := alSet s1.last_asked_for_bets e.1 s1.now }
   else pure ())
  pure r

/-- Inner sweep over the recorded positions of one unconfirmed
transaction (strategy.py 1056-1112), rebuilding the kept positions. -/
def mbSweepPos (oc : Oracle) (h : Hash) (t : Tx) :
    List TxPos → List TxPos → M (List TxPos)
  | [], kept => pure kept
  | pos :: rest, kept => do
    let s ← mGet
    let sr ← mOfOption .indexError (pyGet s.stateroots (pos.1 : Int))
    if sr = none ∨ sr = some zeroHash then mbSweepPos oc h t rest (kept ++ [pos])
    else do
      let p ← mOfOption .indexError (pyGet s.probs (pos.1 : Int))
      if p > qmk 95 100 then do
        let blkE ← mOfOption .indexError (pyGet s.blocks (pos.1 : Int))
        let blk ← (match blkE with
          | some b => pure b
          | none => mThrow .typeError)
        let lb ← mOfOption .indexError blk.summaries[pos.2.2.1]?
        let root ← (match sr with
          | some r => pure r
          | none => mThrow .typeError)
        let lr := oc.logresult (some root) lb pos.2.2.2
        if p > qmk 9999 10000 ∧ lr = 2 then do
          mMod fun s1 => { s1 with txpool := alDel s1.txpool h }
          let s1 ← mGet
          let cur := (alGet s1.finalized_txindex h).getD (t, [])
          mMod fun s2 => { s2 with
            finalized_txindex := alSet s2.finalized_txindex h
              (cur.1, cur.2 ++ [(pos.1, pos.2.1, pos.2.2.1, pos.2.2.2,
                oc.logdata (some root) lb pos.2.2.2)]) }
          mbSweepPos oc h t rest kept
        else if p > qmk 95 100 ∧ lr = 1 then do
          let s1 ← mGet
          let cnt := (alGet s1.tx_exceptions h).getD 0 + 1
          mMod fun s2 => { s2 with tx_exceptions := alSet s2.tx_exceptions h cnt }
          (if cnt ≥ 10 then mMod fun s2 => { s2 with txpool := alDel s2.txpool h }
           else pure ())
          mbSweepPos oc h t rest kept
        else if lr = 0 then mbSweepPos oc h t rest kept
        else mbSweepPos oc h t rest (kept ++ [pos])
      else if p < qmk 5 100 then mbSweepPos oc h t rest kept
      else mbSweepPos oc h t rest (kept ++ [pos])

/-- One entry of the unconfirmed-transaction sweep. -/
def mbSweepEntry (oc : Oracle) (e : Hash × Tx × List TxPos) : M Unit := do
  let kept ← mbSweepPos oc e.1 e.2.1 e.2.2 []
  if kept = [] then
    mMod fun s => { s with unconfirmed_txindex := alDel s.unconfirmed_txindex e.1 }
  else
    mMod fun s => { s with
      unconfirmed_txindex := alSet s.unconfirmed_txindex e.1 (e.2.1, kept) }

def make_block (oc : Oracle) : M Block := do
  let s ← mGet
  let sel := mbTxSel s s.txpool oc.GASLIMIT []
  let hscan := mbScan s.stateroots (s.stateroots.length + 1) 0
  let lsr ← (if hscan = 0 then pure (some s.genesis_state_root)
             else mOfOption .indexError (pyGet s.stateroots ((hscan : Int) - 1)))
  mAssert (lsr ≠ some zeroHash ∧ lsr ≠ none)
  let ops := oc.shuffle s.opinions
  let sel2 ← mFold ops (mbOpStep oc lsr) sel
  let s1 ← mGet
  mFor s1.unconfirmed_txindex (mbSweepEntry oc)
  let s2 ← mGet
  let nb ← (match s2.next_block_to_produce with
    | some n => if 0 ≤ n then pure n.toNat else mThrow .typeError
    | none => mThrow .typeError)
  let b := oc.sign_block sel2.1 nb s2.addr
  send (.broadcast (.blockMsg b))
  receive_block oc b
  let s3 ← mGet
  (if b.number ≥ s3.double_block_suicide then do
    let nonce ← get_nonce oc true
    let newtx := oc.mk_transaction nonce (List.replicate oc.ADDR_BYTES 51) 1 []
    let b2 := oc.sign_block (sel2.1 ++ [newtx]) nb s3.addr
    send (.broadcast (.blockMsg b2))
   else pure ())
  mMod fun s4 => { s4 with last_block_produced := s4.next_block_to_produce }
  add_proposers oc
  pure b

/-! ### tick (strategy.py 1137-1187) -/

def send_ether (oc : Oracle) (to_addr : List Nat) (amount : Nat) : M Unit := do
  let nonce ← get_nonce oc true
  let t := oc.mk_transaction nonce to_addr amount []
  add_transaction t false

def request_ether (amount : Nat) : M Unit := do
  let s ← mGet
  send (.toOne (.faucet s.addr amount))
  mMod fun s1 => { s1 with last_faucet_request := (s1.blocks.length : Int) }

def tick (oc : Oracle) : M Unit := do
  let s ← mGet
  let mytime := s.now
  (if s.index < 0 then do
    let cstF ← get_finalized_state
    let s0 ← mGet
    let bal := oc.balance cstF s0.addr
    if bal < 1500 * 10 ^ 18 then
      (if oc.peers = false then pure ()
       else if s0.last_faucet_request < 0 ∨
           s0.max_finalized_height > s0.last_faucet_request + 5 then
         (if s0.blocks.length = 0 then pure ()
          else request_ether (1600 * 10 ^ 18))
       else pure ())
    else if s0.blocks.length = 0 then pure ()
    else if (s0.blocks.length : Int) < s0.join_at_block then pure ()
    else if s0._joined_at_block < 0 then join oc
    else do
      let cstO ← get_optimistic_state
      update_guardian_set oc cstO
   else pure ())
  let s2 ← mGet
  (if 0 ≤ s2.index ∧ s2.next_block_to_produce ≠ none then
    match s2.next_block_to_produce with
    | some n =>
      if mytime ≥ s2.genesis_time + oc.BLKTIME * Q.ofInt n then do
        recalc_state_roots oc
        let _ ← make_block oc
        pure ()
      else pure ()
    | none => pure ()
   else if s2.next_block_to_produce = none then add_proposers oc
   else pure ())
  let s3 ← mGet
  if s3.last_bet_made < s3.now - oc.BLKTIME * Q.ofInt (oc.VALIDATOR_ROUNDS : Int) * qmk 3 2 then
    mkbet oc
  else pure ()

/-! ### on_receive (strategy.py 888-942)

The LIST message kind recursively dispatches its payload; the recursion
depth is bounded by an explicit fuel argument mirroring the Python call
stack. -/

mutual

def on_receive (oc : Oracle) : Nat → NetMsg → M Unit
  | _, .blockMsg b => receive_block oc b
  | _, .betMsg d => receive_bet oc (Bet.deserialize d)
  | _, .betRequest index seq => do
    let s ← mGet
    match alGet s.bets index with
    | none => pure ()
    | some bmap => do
      let hbp ← mOfOption .keyError (alGet s.highest_bet_processed index)
      let xs := List.range' seq (hbp + 1 - (seq : Int)).toNat
      let bl ← mCollect (xs.map (alGet bmap))
      if bl ≠ [] then
        send (.direct (.listMsg (bl.map (fun bb => .betMsg bb.serialize))))
      else pure ()
  | _, .txMsg t => do
    let inc ← should_i_include_transaction oc t
    if inc then add_transaction t false else pure ()
  | _, .getblock arg => do
    let s ← mGet
    if arg.length < 32 then
      (if beToNat arg < s.blocks.length then
        match pyGet s.blocks (beToNat arg : Int) with
        | some (some b) => send (.direct (.blockMsg b))
        | _ => pure ()
       else pure ())
    else
      match alGet s.objects arg with
      | some (.blk b) => send (.direct (.blockMsg b))
      | _ => pure ()
  | _, .getblocks blknum => do
    let s ← mGet
    let hs := (List.range' blknum (s.blocks.length - blknum)).take 30
    send (.direct (.listMsg (hs.filterMap (fun h =>
      match s.blocks[h]? with
      | some (some b) => some (NetMsg.blockMsg b)
      | _ => none))))
    if blknum < s.blocks.length then
      match pyGet s.blocks (blknum : Int) with
      | some (some b) => send (.direct (.blockMsg b))
      | _ => pure ()
    else pure ()
  | fuel, .listMsg ms =>
    (match fuel with
     | 0 => mThrow .typeError
     | f + 1 => orList oc f ms)
  | _, .faucet to_addr amount => do
    let cstO ← get_optimistic_state
    let s ← mGet
    if oc.balance cstO s.addr ≥ amount * 2 then send_ether oc to_addr amount
    else send (.toOne (.faucet to_addr amount))
  termination_by fuel _ => (fuel, 0)

def orList (oc : Oracle) : Nat → List NetMsg → M Unit
  | _, [] => pure ()
  | f, m :: r => do
    on_receive oc f m
    orList oc f r
  termination_by f l => (f, l.length + 1)

end

/-! ### Concrete nodes and scenarios used by the witnesses -/

/-- A two-block node whose state roots have been computed up to height 1;
the root at height 1 is stale and due for recomputation. -/
def c4State : NodeState where
  now := 0
  addr := []
  guardian_signups := 0
  opinions := []
  bets := []
  probs := [qHalf, qHalf]
  finalized_hashes := []
  stateroots := [some [1], some [3]]
  counters := []
  highest_bet_processed := []
  time_received := []
  objects := []
  blocks := [none, none]
  last_asked_for_block := []
  last_asked_for_bets := []
  txpool := []
  unconfirmed_txindex := []
  finalized_txindex := []
  tx_exceptions := []
  last_bet_made := 0
  last_time_sent_getblocks := 0
  join_at_block := 0
  last_faucet_request := 0
  index := 0
  former_index := none
  last_block_produced := none
  next_block_to_produce := none
  prevhash := zeroHash
  seq := 0
  calc_state_roots_from := 1
  max_finalized_height := -1
  genesis_state_root := [1]
  genesis_time := 0
  induction_height := 0
  withdrawn := false
  recently_discovered_blocks := []
  proposers := []
  tracked_tx_hashes := []
  min_gas_price := 0
  double_block_suicide := 0
  double_bet_suicide := 0
  _last_nonce := -1
  _joined_at_block := 0
  out := []

/-- A collaborator environment consistent with c4State: the root [1] sits
at height 1, applying a (possibly empty) block to it yields the root [2]
at height 2. -/
def c4Oracle : Oracle where
  getGuardianSignups := fun _ => 0
  getNextGuardianIndex := fun _ => 0
  getGuardianCounter := fun _ _ => 0
  getGuardianInductionHeight := fun _ _ => 0
  getGuardianAddress := fun _ _ => []
  getGuardianValidationCode := fun _ _ => []
  getGuardianDeposit := fun _ _ => 0
  getGuardianSeq := fun _ _ => 0
  get_guardian_index := fun _ _ => 0
  is_block_valid := fun _ _ => false
  bet_at_height := fun _ _ => (qHalf, none, false)
  transition := fun _ _ => [2]
  blknum_of := fun c => if c = some [1] then 1 else if c = some [2] then 2 else 0
  sign_bet := fun _ => []
  sign_block := fun _ _ _ => ⟨0, [], [], [], []⟩
  txHash := fun _ _ => []
  mk_transaction := fun _ _ _ _ => ⟨[], 0, [], []⟩
  mk_validation_code := []
  nonce_of := fun _ _ => 0
  balance := fun _ _ => 0
  tx_output := fun _ _ => none
  account_code_ok := fun _ _ => false
  logresult := fun _ _ _ => 0
  logdata := fun _ _ _ => []
  shuffle := fun l => l
  peers := false
  ENTER_EXIT_DELAY := 110
  VALIDATOR_ROUNDS := 5
  BLKTIME := 1
  GASLIMIT := 4712388
  CASPER := []
  ADDR_BYTES := 20

/-- A handler preserves the relation R between its entry and exit
state. -/
@[reducible] def mPres (R : NodeState → NodeState → Prop) {α : Type}
    (m : M α) : Prop :=
  ∀ s, R s (m s).2

/-- The transaction pool and the tracked hashes are untouched. -/
@[reducible] def txKeep (s t : NodeState) : Prop :=
  t.txpool = s.txpool ∧ t.tracked_tx_hashes = s.tracked_tx_hashes

/-- The maximal finalized height does not decrease. -/
@[reducible] def mfhLe (s t : NodeState) : Prop :=
  s.max_finalized_height ≤ t.max_finalized_height

/-- The guardian-0 opinion of the double-bet scenario. -/
def c5Op : Opinion := Opinion.mkNew [] 0 [] 0 0

/-- The bet already stored at (index 0, seq 0). -/
def c5Stored : Bet := ⟨0, 0, [], [], [], [], [], 0, []⟩

/-- A conflicting bet for the same (index 0, seq 0): same body, different
signature. -/
def c5Bet : Bet := ⟨0, 0, [], [], [], [], [], 0, [1]⟩

/-- The double-bet environment: transaction hashes that cannot collide
with a bet hash. -/
def c5Oracle : Oracle := { c4Oracle with txHash := fun _ _ => [99] }

/-- A node that already stores c5Stored and is about to receive the
conflicting c5Bet. -/
def c5State : NodeState := { c4State with
  opinions := [(0, c5Op)],
  bets := [(0, [(0, c5Stored)])],
  highest_bet_processed := [(0, -1)],
  probs := [],
  stateroots := [],
  blocks := [],
  calc_state_roots_from := 0 }

/-- A node that already stores c5Bet itself (and its hash in the objects
cache) and receives the very same bet again. -/
def c5State2 : NodeState := { c5State with
  objects := [(c5Bet.hash, .bet c5Bet)],
  bets := [(0, [(0, c5Bet)])] }

/-- The coercion pass over srp as the specification words it: element i of
srp refers to height sign_from + i, and is coerced to FINALITY_LOW exactly
when the state root at that height is the zero hash.  This follows the
spec text, for comparison with coerceSrp translated from the code. -/
def specCoerce (sign_from : Nat) (stateroots : List (Option Hash)) :
    List Q → Nat → List Q
  | [], _ => []
  | x :: r, i =>
    (if stateroots[sign_from + i]? = some (some zeroHash) then FINALITY_LOW
     else x) :: specCoerce sign_from stateroots r (i + 1)

/-- The stateroot_probs field of the emitted bet as the specification
words it: the reverse of the height-coerced srp from srprobstart on. -/
def specStaterootProbs (s : NodeState) (srp : List Q) (sign_from : Nat) :
    List Q :=
  ((specCoerce sign_from s.stateroots srp 0).drop
    (max sign_from s.induction_height - sign_from)).reverse

/-- A node about to emit a bet: signing starts at height 1, the state root
at height 0 is the zero hash, the roots at heights 1 and 2 are real. -/
def c7State : NodeState := { c4State with
  index := 0,
  induction_height := 0,
  recently_discovered_blocks := [1],
  probs := [qHalf, qHalf, qHalf],
  stateroots := [some zeroHash, some [5], some [6]],
  blocks := [none, none, none] }

/-- The state-root probabilities accumulated for heights 1 and 2. -/
def c7Srp : List Q := [qmk 3 4, qmk 3 5]

/-- The bet that mkbet builds from c7State and c7Srp: the first srp entry
is coerced to FINALITY_LOW because stateroots[0] (the zero hash) is
consulted, even though that entry refers to height 1 whose root is
real. -/
def c7WitBet : Bet :=
  ⟨0, 2, [qHalf, qHalf], [zeroHash, zeroHash], [some [6], some [5]],
   [qmk 3 5, FINALITY_LOW], zeroHash, 0, []⟩

/-- A node that broadcast a GETBLOCK for block hash [7] one second ago
(at time 99, now being 100). -/
def c8State : NodeState := { c4State with
  now := 100,
  last_asked_for_block := [(.hsh [7], 99)] }

/-- Concrete opinion for the C1 counterexample: expected seq 5. -/
def c1Op : Opinion :=
  ⟨[], 0, [], [], [], [], zeroHash, 5, 0, 2 ^ 100, false, 0⟩

/-- Concrete bet for the C1 counterexample: seq 3 against expected 5. -/
def c1Bet : Bet := ⟨0, 0, [], [], [], [], zeroHash, 3, []⟩

/-- Concrete opinion for the C3 counterexample. -/
def c3Op : Opinion :=
  ⟨[], 1, [], [], [], [], zeroHash, 0, 0, 2 ^ 100, false, 0⟩

/-- Withdrawal bet (max_height 2^256 - 1) matching the expected seq. -/
def c3WBet : Bet := ⟨1, 2 ^ 256 - 1, [], [], [], [], zeroHash, 0, []⟩

/-- A later bet from the same guardian whose seq does not match the
post-withdrawal expected seq. -/
def c3Bet2 : Bet := ⟨1, 0, [], [], [], [], zeroHash, 5, []⟩

/-- Concrete two-element sequence for the C9 witness. -/
def c9List : LDBList Nat :=
  ⟨2, fun k => if k < 2 then some (10 * k) else none⟩

/-- The four opinion arrays share one length. -/
def lensOk (o : Opinion) : Prop :=
  o.blockhashes.length = o.probs.length ∧
  o.stateroots.length = o.probs.length ∧
  o.stateroot_probs.length = o.probs.length

instance (o : Opinion) : Decidable (lensOk o) := by
  unfold lensOk
  infer_instance

/-- Sequential application of bets to an opinion, defined only while every
call returns True. -/
def processMany (o : Opinion) : List Bet → Option Opinion
  | [] => some o
  | b :: r =>
    match o.process_bet b with
    | (.ok true, o1) => processMany o1 r
    | _ => none

/-- Concrete opinion and bets for the C10 witness. -/
def c10Op : Opinion := Opinion.mkNew [] 0 zeroHash 0 0

/-- Two concrete bets applied in sequence for the C10 witness. -/
def c10Bets : List Bet :=
  [⟨0, 2, [qmk 1 2, qmk 3 4], [[1]], [some [2]], [qmk 9 10], zeroHash, 0, []⟩,
   ⟨0, 3, [qmk 2 5], [[7]], [none], [qmk 1 10], [0], 1, []⟩]

/-- The opinion after the C10 witness run. -/
def c10Out : Opinion :=
  (processMany c10Op c10Bets).getD (Opinion.mkNew [] 0 zeroHash 0 0)

/-- Concrete bet for the C6 counterexample: the probability 2/5 is not in
the one-byte log-odds table, so quantization loses it. -/
def c6Bet : Bet := ⟨0, 0, [qmk 2 5], [], [], [], zeroHash, 0, []⟩

/-- Concrete bet for the C6 witness: 1/3 and 1/2 are table entries
(indices 127 and 128), so the round trip is exact. -/
def c6WitBet : Bet := ⟨2, 7, [qmk 1 3], [[1, 2]], [some [3]], [qmk 1 2], zeroHash, 4, [9]⟩

/-! ## Theorems -/

/-! ### Probability codec lemmas -/

theorem Q.le_def (a b : Q) :
    (a ≤ b) ↔ a.num * (b.den : Int) ≤ b.num * (a.den : Int) := Iff.rfl

theorem Q.lt_def (a b : Q) :
    (a < b) ↔ a.num * (b.den : Int) < b.num * (a.den : Int) := Iff.rfl

theorem decode_prob_le_decode_prob {i j : Nat} :
    decode_prob i ≤ decode_prob j ↔ i ≤ j := by
  unfold decode_prob
  rcases le_or_lt i 128 with hi | hi <;> rcases le_or_lt j 128 with hj | hj
  · rw [if_pos hi, if_pos hj, Q.le_def]
    dsimp only
    constructor
    · intro h
      have h1 : (2:Nat) ^ (128 - j) + 1 ≤ 2 ^ (128 - i) + 1 := by
        have hn : (1:Int) * ((2:Nat) ^ (128 - j) + 1 : Nat) ≤
            1 * ((2:Nat) ^ (128 - i) + 1 : Nat) := by exact_mod_cast h
        rw [one_mul, one_mul] at hn
        exact_mod_cast hn
      have h2 : 128 - j ≤ 128 - i :=
        (Nat.pow_le_pow_iff_right (by norm_num : 1 < 2)).mp (by omega)
      omega
    · intro h
      have h1 : (2:Nat) ^ (128 - j) ≤ 2 ^ (128 - i) :=
        Nat.pow_le_pow_right (by norm_num) (by omega)
      have hn : ((2:Nat) ^ (128 - j) + 1 : Nat) ≤ ((2:Nat) ^ (128 - i) + 1 : Nat) := by
        omega
      have hn2 : (1:Int) * ((2:Nat) ^ (128 - j) + 1 : Nat) ≤
          1 * ((2:Nat) ^ (128 - i) + 1 : Nat) := by
        rw [one_mul, one_mul]
        exact_mod_cast Int.ofNat_le.mpr hn
      exact_mod_cast hn2
  · rw [if_pos hi, if_neg (by omega), Q.le_def]
    dsimp only
    have ha : 1 ≤ (2:Nat) ^ (j - 128) := Nat.one_le_two_pow
    have hb : 1 ≤ (2:Nat) ^ (128 - i) := Nat.one_le_two_pow
    have hab : 1 ≤ (2:Nat) ^ (j - 128) * 2 ^ (128 - i) :=
      le_trans (by norm_num) (Nat.mul_le_mul ha hb)
    constructor
    · intro _
      omega
    · intro _
      have hgoal : (2:Nat) ^ (j - 128) + 1 ≤ 2 ^ (j - 128) * (2 ^ (128 - i) + 1) := by
        have he : (2:Nat) ^ (j - 128) * (2 ^ (128 - i) + 1) =
            2 ^ (j - 128) * 2 ^ (128 - i) + 2 ^ (j - 128) := by ring
        omega
      push_cast
      exact_mod_cast Int.ofNat_le.mpr (by simpa using hgoal)
  · rw [if_neg (by omega), if_pos hj, Q.le_def]
    dsimp only
    have ha : 2 ≤ (2:Nat) ^ (i - 128) := by
      calc 2 = 2 ^ 1 := by norm_num
      _ ≤ 2 ^ (i - 128) := Nat.pow_le_pow_right (by norm_num) (by omega)
    have hb : 1 ≤ (2:Nat) ^ (128 - j) := Nat.one_le_two_pow
    have hab : (2:Nat) ^ (i - 128) ≤ 2 ^ (i - 128) * 2 ^ (128 - j) :=
      Nat.le_mul_of_pos_right _ (by omega)
    constructor
    · intro hle
      exfalso
      have hn : (2:Nat) ^ (i - 128) * (2 ^ (128 - j) + 1) ≤ 1 * (2 ^ (i - 128) + 1) := by
        exact_mod_cast hle
      have he : (2:Nat) ^ (i - 128) * (2 ^ (128 - j) + 1) =
          2 ^ (i - 128) * 2 ^ (128 - j) + 2 ^ (i - 128) := by ring
      omega
    · intro h
      omega
  · rw [if_neg (by omega), if_neg (by omega), Q.le_def]
    dsimp only
    have he1 : (2:Nat) ^ (i - 128) * (2 ^ (j - 128) + 1) =
        2 ^ (i - 128) * 2 ^ (j - 128) + 2 ^ (i - 128) := by ring
    have he2 : (2:Nat) ^ (j - 128) * (2 ^ (i - 128) + 1) =
        2 ^ (j - 128) * 2 ^ (i - 128) + 2 ^ (j - 128) := by ring
    have hcomm : (2:Nat) ^ (i - 128) * 2 ^ (j - 128) =
        2 ^ (j - 128) * 2 ^ (i - 128) := Nat.mul_comm _ _
    constructor
    · intro hle
      have hn : (2:Nat) ^ (i - 128) * (2 ^ (j - 128) + 1) ≤
          2 ^ (j - 128) * (2 ^ (i - 128) + 1) := by exact_mod_cast hle
      have h1 : (2:Nat) ^ (i - 128) ≤ 2 ^ (j - 128) := by omega
      have h2 : i - 128 ≤ j - 128 :=
        (Nat.pow_le_pow_iff_right (by norm_num : 1 < 2)).mp h1
      omega
    · intro h
      have h1 : (2:Nat) ^ (i - 128) ≤ 2 ^ (j - 128) :=
        Nat.pow_le_pow_right (by norm_num) (by omega)
      have hn : (2:Nat) ^ (i - 128) * (2 ^ (j - 128) + 1) ≤
          2 ^ (j - 128) * (2 ^ (i - 128) + 1) := by omega
      exact_mod_cast Int.ofNat_le.mpr hn

theorem encGo_le (i : Nat) (p : Q) : encGo i p ≤ i := by
  induction i with
  | zero => simp [encGo]
  | succ n ih =>
    unfold encGo
    split
    · exact le_refl _
    · exact Nat.le_succ_of_le ih

theorem encGo_decode (i j : Nat) (h : j ≤ i) : encGo i (decode_prob j) = j := by
  induction i with
  | zero =>
    have hj : j = 0 := Nat.le_zero.mp h
    subst hj
    rfl
  | succ n ih =>
    unfold encGo
    rcases Nat.lt_or_ge j (n + 1) with hlt | hge
    · rw [if_neg, ih (Nat.lt_succ_iff.mp hlt)]
      intro hc
      exact absurd (decode_prob_le_decode_prob.mp hc) (by omega)
    · have hj : j = n + 1 := le_antisymm h hge
      subst hj
      rw [if_pos (decode_prob_le_decode_prob.mpr (le_refl (n + 1)))]

/-- Round-tripping a table entry through encode recovers the byte. -/
theorem encode_decode_prob (j : Nat) (h : j ≤ 255) :
    encode_prob (decode_prob j) = j :=
  encGo_decode 255 j h

/-- Re-encoding a decoded probability is the identity on encoded bytes. -/
theorem encode_decode_encode (p : Q) :
    encode_prob (decode_prob (encode_prob p)) = encode_prob p :=
  encode_decode_prob _ (encGo_le 255 p)

/-! ### Monad unfolding lemmas -/

theorem M_bind_apply {α β : Type} (m : M α) (k : α → M β) (s : NodeState) :
    (m >>= k) s = match m s with
      | (.ok a, s1) => k a s1
      | (.error e, s1) => (.error e, s1) := rfl

theorem mGet_apply (s : NodeState) : mGet s = (.ok s, s) := rfl

theorem mMod_apply (f : NodeState → NodeState) (s : NodeState) :
    mMod f s = (.ok (), f s) := rfl

theorem mThrow_apply {α : Type} (e : Err) (s : NodeState) :
    (mThrow e : M α) s = (.error e, s) := rfl

theorem pure_apply {α : Type} (a : α) (s : NodeState) :
    (pure a : M α) s = (.ok a, s) := rfl

theorem mOfOption_some {α : Type} (e : Err) (a : α) :
    mOfOption e (some a) = pure a := rfl

theorem mOfOption_none {α : Type} (e : Err) :
    (mOfOption e none : M α) = mThrow e := rfl

theorem send_apply (m : OutMsg) (s : NodeState) :
    send m s = (.ok (), { s with out := s.out ++ [m] }) := rfl

/-! ### Python list access on natural indices -/

theorem pyGet_natCast {α : Type} (l : List α) (h : Nat) :
    pyGet l (h : Int) = l[h]? := by
  unfold pyGet pyIdx
  by_cases hlt : h < l.length
  · rw [if_neg (by omega), if_neg (by omega)]
    simp
  · rw [if_pos (by omega)]
    rw [List.getElem?_eq_none (by omega)]

theorem pySet_natCast {α : Type} (l : List α) (h : Nat) (v : α) :
    pySet l (h : Int) v = if h < l.length then some (l.set h v) else none := by
  unfold pySet pyIdx
  by_cases hlt : h < l.length
  · rw [if_neg (by omega), if_neg (by omega), if_pos hlt]
    simp
  · rw [if_pos (by omega), if_neg hlt]
    rfl

/-! ### List helper lemmas -/

theorem pySet_length {α : Type} {l : List α} {i : Int} {v : α} {l2 : List α}
    (h : pySet l i v = some l2) : l2.length = l.length := by
  unfold pySet at h
  cases hk : pyIdx l.length i with
  | none => rw [hk] at h; simp at h
  | some k =>
    rw [hk] at h
    simp only [Option.map_some'] at h
    cases h
    exact List.length_set _ _ _

theorem betWrite_length {α β : Type} (mh : Nat) (f : β → α) :
    ∀ (src : List β) (i : Nat) (dst : List α),
      (betWrite mh f src i dst).2.length = dst.length := by
  intro src
  induction src with
  | nil => intro i dst; rfl
  | cons x r ih =>
    intro i dst
    unfold betWrite
    cases hs : pySet dst ((mh : Int) - i) (f x) with
    | none => rfl
    | some d2 =>
      simp only []
      rw [ih (i + 1) d2, pySet_length hs]

/-! ### Claim C1 -/

/-- C1 (counterexample): on a sequence-number mismatch process_bet does
NOT proceed with the update: at this concrete opinion and bet it returns
False, leaves the opinion untouched, and in particular does not set seq to
B.seq + 1. -/
theorem claim_C1_counterexample :
    (c1Op.process_bet c1Bet).1 = .ok false ∧
    (c1Op.process_bet c1Bet).2 = c1Op ∧
    ¬ (c1Op.process_bet c1Bet).2.seq = c1Bet.seq + 1 := by
  decide

/-- C1 (amended): for every opinion O and bet B with B.seq ≠ O.seq,
Opinion.process_bet logs the mismatch and returns False leaving O
unchanged; the update O.seq ← B.seq + 1, O.prevhash ← hash(B) (and the
array overwrites) happen only on a bet whose seq matches, as witnessed by
the second conjunct for non-withdrawn opinions. -/
theorem claim_C1_theorem :
    (∀ (o : Opinion) (b : Bet), b.seq ≠ o.seq →
      o.process_bet b = (.ok false, o)) ∧
    (∀ (o : Opinion) (b : Bet), b.seq = o.seq → o.withdrawn = false →
      (o.process_bet b).2.seq = b.seq + 1 ∧
      (o.process_bet b).2.prevhash = b.hash) := by
  constructor
  · intro o b h
    simp [Opinion.process_bet, h]
  · intro o b h hw
    unfold Opinion.process_bet
    rw [if_neg (by simp [h]), if_neg (by simp [hw])]
    dsimp only
    split
    · exact ⟨rfl, rfl⟩
    · split <;> (try split) <;> (try split) <;> (try split) <;> exact ⟨rfl, rfl⟩

/-- C1 (witness): the amended claim evaluated at concrete inputs: the
mismatch case at (c1Op, c1Bet) and the matching case at the same bet
against an opinion expecting seq 3. -/
theorem claim_C1_witness :
    c1Op.process_bet c1Bet = (.ok false, c1Op) ∧
    (({ c1Op with seq := 3 } : Opinion).process_bet c1Bet).2.seq = c1Bet.seq + 1 ∧
    (({ c1Op with seq := 3 } : Opinion).process_bet c1Bet).2.prevhash = c1Bet.hash :=
  ⟨claim_C1_theorem.1 c1Op c1Bet (by decide),
   claim_C1_theorem.2 { c1Op with seq := 3 } c1Bet (by decide) (by decide)⟩

/-! ### Claim C3 -/

/-- C3 (counterexample): after processing a withdrawal bet (which sets
withdrawn), a subsequent bet with a non-matching seq is answered with a
normal False return, not with the slashing exception: withdrawal is
checked only after the sequence-number check. -/
theorem claim_C3_counterexample :
    (c3Op.process_bet c3WBet).1 = .ok true ∧
    (c3Op.process_bet c3WBet).2.withdrawn = true ∧
    ((c3Op.process_bet c3WBet).2.process_bet c3Bet2).1 = .ok false := by
  decide

/-- C3 (amended): withdrawal is terminal for in-sequence bets: on any
opinion with the withdrawn flag set, processing a bet whose seq equals the
expected seq raises the bet-after-withdrawal slashing exception and leaves
the opinion unchanged; a bet with a mismatched seq is instead rejected
with a normal False return before the withdrawal check. -/
theorem claim_C3_theorem (o : Opinion) (b : Bet)
    (hw : o.withdrawn = true) :
    (b.seq = o.seq →
      o.process_bet b = (.error .slashBetAfterWithdrawal, o)) ∧
    (b.seq ≠ o.seq → o.process_bet b = (.ok false, o)) := by
  constructor
  · intro h
    simp [Opinion.process_bet, h, hw]
  · intro h
    simp [Opinion.process_bet, h]

/-- C3 (witness): the amended claim evaluated on the concrete withdrawn
opinion produced by the C3 counterexample scenario. -/
theorem claim_C3_witness :
    ((c3Op.process_bet c3WBet).2.process_bet
        { c3Bet2 with seq := 1 } =
      (.error .slashBetAfterWithdrawal, (c3Op.process_bet c3WBet).2)) ∧
    ((c3Op.process_bet c3WBet).2.process_bet c3Bet2 =
      (.ok false, (c3Op.process_bet c3WBet).2)) :=
  ⟨(claim_C3_theorem _ _ (by decide)).1 (by decide),
   (claim_C3_theorem _ _ (by decide)).2 (by decide)⟩

/-! ### Claim C9 -/

/-- C9: for a persistent ordered sequence of length n whose backing store
holds every position below n, integer indexing succeeds exactly when
-n ≤ i < n; a negative in-range index reads the same slot as i + n; and
both the read and the write fail with the out-of-range IndexError when
i < -n or i ≥ n. -/
theorem claim_C9_theorem {V : Type} (l : LDBList V) (i : Int) (v : V)
    (hwf : ∀ k, k < l.length → (l.data k).isSome) :
    ((∃ w, l.getitem i = .ok w) ↔
      (-(l.length : Int) ≤ i ∧ i < (l.length : Int))) ∧
    ((-(l.length : Int) ≤ i ∧ i < 0) →
      l.getitem i = l.getitem (i + l.length)) ∧
    ((i < -(l.length : Int) ∨ (l.length : Int) ≤ i) →
      l.getitem i = .error .indexError ∧
      l.setitem i v = .error .indexError) := by
  refine ⟨⟨?_, ?_⟩, ?_, ?_⟩
  · intro ⟨w, hw⟩
    by_contra hb
    have hoor : i < -(l.length : Int) ∨ (l.length : Int) ≤ i := by omega
    rw [LDBList.getitem, if_pos hoor] at hw
    exact absurd hw (by simp)
  · intro ⟨h1, h2⟩
    have hoor : ¬ (i < -(l.length : Int) ∨ (l.length : Int) ≤ i) := by omega
    rw [LDBList.getitem, if_neg hoor]
    have hn : 0 < (l.length : Int) ∨ (0 ≤ i ∧ i < l.length) := by omega
    rcases Int.lt_or_le i 0 with hneg | hpos
    · have hnpos : (0:Int) < l.length := by omega
      have hk : ((i % (l.length : Int)).toNat) < l.length := by
        have h0 : 0 ≤ i % (l.length : Int) := Int.emod_nonneg i (by omega)
        have h1 : i % (l.length : Int) < l.length := Int.emod_lt_of_pos i hnpos
        omega
      have := hwf _ hk
      rw [if_pos hneg]
      cases hd : l.data ((i % (l.length : Int)).toNat) with
      | none => rw [hd] at this; simp at this
      | some w => exact ⟨w, rfl⟩
    · have hk : i.toNat < l.length := by omega
      have := hwf _ hk
      rw [if_neg (by omega)]
      cases hd : l.data i.toNat with
      | none => rw [hd] at this; simp at this
      | some w => exact ⟨w, rfl⟩
  · intro ⟨h1, h2⟩
    have hnpos : (0:Int) < l.length := by omega
    have hoor1 : ¬ (i < -(l.length : Int) ∨ (l.length : Int) ≤ i) := by omega
    have hoor2 : ¬ (i + l.length < -(l.length : Int) ∨
        (l.length : Int) ≤ i + l.length) := by omega
    rw [LDBList.getitem, LDBList.getitem, if_neg hoor1, if_neg hoor2]
    have hmod : i % (l.length : Int) = i + l.length := by
      have h3 : (i + (l.length : Int) * 1) % (l.length : Int) = i % (l.length : Int) :=
        Int.add_mul_emod_self_left i (l.length : Int) 1
      have h4 : (i + l.length) % (l.length : Int) = i + l.length :=
        Int.emod_eq_of_lt (by omega) (by omega)
      rw [mul_one] at h3
      rw [← h3, h4]
    rw [if_pos h2, if_neg (by omega), hmod]
  · intro hoor
    rw [LDBList.getitem, LDBList.setitem, if_pos hoor, if_pos hoor]
    exact ⟨rfl, rfl⟩

/-- C9 (witness): the theorem evaluated at the concrete sequence c9List,
index -1 and write value 7. -/
theorem claim_C9_witness :
    ((∃ w, c9List.getitem (-1) = .ok w) ↔
      (-(c9List.length : Int) ≤ -1 ∧ (-1 : Int) < (c9List.length : Int))) ∧
    ((-(c9List.length : Int) ≤ -1 ∧ (-1 : Int) < 0) →
      c9List.getitem (-1) = c9List.getitem (-1 + c9List.length)) ∧
    (((-1 : Int) < -(c9List.length : Int) ∨ (c9List.length : Int) ≤ -1) →
      c9List.getitem (-1) = .error .indexError ∧
      c9List.setitem (-1) 7 = .error .indexError) :=
  claim_C9_theorem c9List (-1) 7 (by
    intro k hk
    have h2 : k < 2 := hk
    simp [c9List, h2])

/-! ### Claim C4 -/

theorem stateAtM_state (h : Int) (s : NodeState) : ((stateAtM h) s).2 = s := by
  unfold stateAtM
  rw [M_bind_apply, mGet_apply]
  dsimp only
  by_cases h0 : 0 ≤ h
  · rw [if_pos h0]
    cases hg : pyGet s.stateroots h with
    | none => rw [mOfOption_none, mThrow_apply]
    | some e => rw [mOfOption_some, pure_apply]
  · rw [if_neg h0, pure_apply]

/-- One step of the zero-fill loop. -/
theorem rsrZero_cons (h : Nat) (rest : List Nat) (s : NodeState) :
    (rsrZero (h :: rest)) s =
      if h < s.stateroots.length then
        (rsrZero rest) { s with stateroots := s.stateroots.set h (some zeroHash) }
      else (.error .indexError, s) := by
  show ((mGet >>= fun s0 =>
      mOfOption .indexError (pySet s0.stateroots (h : Int) (some zeroHash)) >>= fun sr2 =>
      mMod (fun s1 => { s1 with stateroots := sr2 }) >>= fun _ =>
      rsrZero rest) s) = _
  rw [M_bind_apply, mGet_apply]
  dsimp only
  by_cases hlt : h < s.stateroots.length
  · rw [if_pos hlt]
    have hset : pySet s.stateroots (h : Int) (some zeroHash) =
        some (s.stateroots.set h (some zeroHash)) := by
      rw [pySet_natCast, if_pos hlt]
    rw [M_bind_apply, hset, mOfOption_some, pure_apply]
    dsimp only
    rw [M_bind_apply, mMod_apply]
  · rw [if_neg hlt]
    have hset : pySet s.stateroots (h : Int) (some zeroHash) = none := by
      rw [pySet_natCast, if_neg hlt]
    rw [M_bind_apply, hset, mOfOption_none, mThrow_apply]

theorem rsrZero_spec : ∀ (hs : List Nat) (s : NodeState),
    ((rsrZero hs) s).1 = .ok () →
    (∀ h ∈ hs, ((rsrZero hs) s).2.stateroots[h]? = some (some zeroHash)) ∧
    (∀ k : Nat, k ∉ hs → ((rsrZero hs) s).2.stateroots[k]? = s.stateroots[k]?) := by
  intro hs
  induction hs with
  | nil =>
    intro s _
    exact ⟨by simp, fun k _ => rfl⟩
  | cons h rest ih =>
    intro s hok
    rw [rsrZero_cons] at hok ⊢
    by_cases hlt : h < s.stateroots.length
    · rw [if_pos hlt] at hok ⊢
      obtain ⟨ih1, ih2⟩ :=
        ih { s with stateroots := s.stateroots.set h (some zeroHash) } hok
      constructor
      · intro x hx
        rcases List.mem_cons.mp hx with hxh | hxr
        · subst hxh
          by_cases hxr2 : x ∈ rest
          · exact ih1 x hxr2
          · rw [ih2 x hxr2]
            simpa using List.getElem?_set_self hlt
        · exact ih1 x hxr
      · intro k hk
        have hk1 : k ≠ h := fun he => hk (he ▸ List.mem_cons_self h rest)
        have hk2 : k ∉ rest := fun he => hk (List.mem_cons_of_mem h he)
        rw [ih2 k hk2]
        simpa using List.getElem?_set_ne (fun he => hk1 he.symm)
    · rw [if_neg hlt] at hok
      exact absurd hok (by simp)

/-- One step of the closing integrity check, missing-entry case. -/
theorem rsrCheck_cons_none {i : Nat} {s : NodeState} (rest : List Nat)
    (hg : s.stateroots[i]? = none) :
    (rsrCheckLoop (i :: rest)) s = (.error .indexError, s) := by
  show ((mGet >>= fun s0 =>
      mOfOption .indexError (pyGet s0.stateroots (i : Int)) >>= fun e =>
      if e = some zeroHash ∨ e = none then mThrow Err.assertError
      else rsrCheckLoop rest) s) = _
  rw [M_bind_apply, mGet_apply]
  dsimp only
  rw [M_bind_apply, pyGet_natCast, hg, mOfOption_none, mThrow_apply]

/-- One step of the closing integrity check, present-entry case. -/
theorem rsrCheck_cons_some {i : Nat} {s : NodeState} {e : Option Hash}
    (rest : List Nat) (hg : s.stateroots[i]? = some e) :
    (rsrCheckLoop (i :: rest)) s =
      if e = some zeroHash ∨ e = none then (.error .assertError, s)
      else (rsrCheckLoop rest) s := by
  show ((mGet >>= fun s0 =>
      mOfOption .indexError (pyGet s0.stateroots (i : Int)) >>= fun e2 =>
      if e2 = some zeroHash ∨ e2 = none then mThrow Err.assertError
      else rsrCheckLoop rest) s) = _
  rw [M_bind_apply, mGet_apply]
  dsimp only
  rw [M_bind_apply, pyGet_natCast, hg, mOfOption_some, pure_apply]
  dsimp only
  by_cases hc : e = some zeroHash ∨ e = none
  · rw [if_pos hc, if_pos hc, mThrow_apply]
  · rw [if_neg hc, if_neg hc]

theorem rsrCheck_spec : ∀ (l : List Nat) (s : NodeState),
    ((rsrCheckLoop l) s).1 = .ok () →
    ((rsrCheckLoop l) s).2 = s ∧
    ∀ i ∈ l, ∃ r : Hash, s.stateroots[i]? = some (some r) ∧ r ≠ zeroHash := by
  intro l
  induction l with
  | nil =>
    intro s _
    exact ⟨rfl, by simp⟩
  | cons i rest ih =>
    intro s hok
    cases hg : s.stateroots[i]? with
    | none =>
      rw [rsrCheck_cons_none rest hg] at hok
      exact absurd hok (by simp)
    | some e =>
      rw [rsrCheck_cons_some rest hg] at hok ⊢
      by_cases hc : e = some zeroHash ∨ e = none
      · rw [if_pos hc] at hok
        exact absurd hok (by simp)
      · rw [if_neg hc] at hok ⊢
        obtain ⟨ihs, ihv⟩ := ih s hok
        refine ⟨ihs, ?_⟩
        intro x hx
        rcases List.mem_cons.mp hx with hxh | hxr
        · subst hxh
          push_neg at hc
          cases e with
          | none => exact absurd rfl hc.2
          | some r => exact ⟨r, hg, fun he => hc.1 (by rw [he])⟩
        · exact ihv x hxr

/-- C4: recalc_state_roots selects MAX_RECALC (9) as its recomputation
limit when calc_state_roots_from > |blocks| - 20 and MAX_LONG_RECALC (14)
otherwise; on normal return with frm the entry cursor it has set
stateroots[h] to the zero hash for every h in [frm + limit, |blocks|),
moved calc_state_roots_from to min(frm + limit, |blocks|), and left no
zero or nil state root below the new cursor. -/
theorem claim_C4_theorem (oc : Oracle) (s : NodeState)
    (hok : (recalc_state_roots oc s).1 = .ok ()) :
    MAX_RECALC = 9 ∧ MAX_LONG_RECALC = 14 ∧
    recalc_limit_of s = (if (s.calc_state_roots_from : Int) >
      (s.blocks.length : Int) - 20 then MAX_RECALC else MAX_LONG_RECALC) ∧
    (recalc_state_roots oc s).2.calc_state_roots_from =
      min (s.calc_state_roots_from + recalc_limit_of s) s.blocks.length ∧
    (∀ h : Nat, s.calc_state_roots_from + recalc_limit_of s ≤ h →
      h < s.blocks.length →
      (recalc_state_roots oc s).2.stateroots[h]? = some (some zeroHash)) ∧
    (∀ h : Nat, h < (recalc_state_roots oc s).2.calc_state_roots_from →
      ∃ r : Hash, (recalc_state_roots oc s).2.stateroots[h]? = some (some r) ∧
        r ≠ zeroHash) := by
  refine ⟨rfl, rfl, rfl, ?_⟩
  have hunf : recalc_state_roots oc s =
      (stateAtM ((s.calc_state_roots_from : Int) - 1) >>= fun cst =>
        rsrLoop oc cst ((List.range' s.calc_state_roots_from
          (s.blocks.length - s.calc_state_roots_from)).take (recalc_limit_of s)) >>=
        fun _ =>
        rsrZero (List.range' (s.calc_state_roots_from + recalc_limit_of s)
          (s.blocks.length - (s.calc_state_roots_from + recalc_limit_of s))) >>=
        fun _ =>
        mMod (fun s1 => { s1 with
          calc_state_roots_from :=
            min (s.calc_state_roots_from + recalc_limit_of s) s.blocks.length }) >>=
        fun _ =>
        rsrCheckLoop (List.range
          (min (s.calc_state_roots_from + recalc_limit_of s) s.blocks.length))) s :=
    rfl
  rw [hunf] at hok ⊢
  rw [M_bind_apply] at hok ⊢
  rcases hcst : stateAtM ((s.calc_state_roots_from : Int) - 1) s with ⟨cr, cs⟩
  have hcs : cs = s := by
    have hh := stateAtM_state ((s.calc_state_roots_from : Int) - 1) s
    rw [hcst] at hh
    exact hh
  subst hcs
  rw [hcst] at hok
  cases cr with
  | error e => exact absurd hok (by simp)
  | ok cst =>
    dsimp only at hok ⊢
    rw [M_bind_apply] at hok ⊢
    rcases hloop : rsrLoop oc cst ((List.range' cs.calc_state_roots_from
        (cs.blocks.length - cs.calc_state_roots_from)).take (recalc_limit_of cs)) cs
        with ⟨lr, ls⟩
    rw [hloop] at hok
    cases lr with
    | error e => exact absurd hok (by simp)
    | ok lv =>
      dsimp only at hok ⊢
      rw [M_bind_apply] at hok ⊢
      rcases hzero : rsrZero (List.range'
          (cs.calc_state_roots_from + recalc_limit_of cs)
          (cs.blocks.length - (cs.calc_state_roots_from + recalc_limit_of cs))) ls
          with ⟨zr, zs⟩
      rw [hzero] at hok
      cases zr with
      | error e => exact absurd hok (by simp)
      | ok zv =>
        dsimp only at hok ⊢
        rw [M_bind_apply, mMod_apply] at hok ⊢
        dsimp only at hok ⊢
        rcases hchk : rsrCheckLoop (List.range
            (min (cs.calc_state_roots_from + recalc_limit_of cs) cs.blocks.length))
            { zs with
              calc_state_roots_from :=
                min (cs.calc_state_roots_from + recalc_limit_of cs) cs.blocks.length }
            with ⟨kr, ks⟩
        rw [hchk] at hok
        cases kr with
        | error e => exact absurd hok (by simp)
        | ok kv =>
          dsimp only at hok ⊢
          have hzok : (rsrZero (List.range'
              (cs.calc_state_roots_from + recalc_limit_of cs)
              (cs.blocks.length - (cs.calc_state_roots_from + recalc_limit_of cs)))
              ls).1 = .ok () := by
            rw [hzero]
          obtain ⟨hz1, _⟩ := rsrZero_spec _ ls hzok
          have hkok : (rsrCheckLoop (List.range
              (min (cs.calc_state_roots_from + recalc_limit_of cs) cs.blocks.length))
              { zs with
                calc_state_roots_from :=
                  min (cs.calc_state_roots_from + recalc_limit_of cs)
                    cs.blocks.length }).1 = .ok () := by
            rw [hchk]
          obtain ⟨hks, hkv⟩ := rsrCheck_spec _ _ hkok
          rw [hchk] at hks
          dsimp only at hks
          subst hks
          refine ⟨rfl, ?_, ?_⟩
          · intro h hge hlt
            have hmem : h ∈ List.range'
                (cs.calc_state_roots_from + recalc_limit_of cs)
                (cs.blocks.length -
                  (cs.calc_state_roots_from + recalc_limit_of cs)) := by
              rw [List.mem_range']
              exact ⟨h - (cs.calc_state_roots_from + recalc_limit_of cs),
                by omega, by omega⟩
            have hv := hz1 h hmem
            rw [hzero] at hv
            exact hv
          · intro h hlt
            exact hkv h (List.mem_range.mpr hlt)

theorem claim_C4_witness :
    (recalc_state_roots c4Oracle c4State).1 = .ok () ∧
    (recalc_state_roots c4Oracle c4State).2.calc_state_roots_from =
      min (c4State.calc_state_roots_from + recalc_limit_of c4State)
        c4State.blocks.length :=
  ⟨by decide, (claim_C4_theorem c4Oracle c4State (by decide)).2.2.2.1⟩

/-! ### Association-list lemmas -/

theorem alGet_alSet_self {κ ν : Type} [DecidableEq κ] (l : List (κ × ν))
    (k : κ) (v : ν) : alGet (alSet l k v) k = some v := by
  induction l with
  | nil =>
    unfold alSet alGet
    rw [if_pos rfl]
  | cons p r ih =>
    rcases p with ⟨k2, w⟩
    unfold alSet
    by_cases hk : k2 = k
    · rw [if_pos hk]
      unfold alGet
      rw [if_pos hk]
    · rw [if_neg hk]
      unfold alGet
      rw [if_neg hk]
      exact ih

theorem alGet_alSet_ne {κ ν : Type} [DecidableEq κ] (l : List (κ × ν))
    (k q : κ) (v : ν) (h : q ≠ k) :
    alGet (alSet l k v) q = alGet l q := by
  induction l with
  | nil =>
    unfold alSet alGet
    rw [if_neg (fun hh => h hh.symm)]
    rfl
  | cons p r ih =>
    rcases p with ⟨k2, w⟩
    unfold alSet
    by_cases hk : k2 = k
    · rw [if_pos hk]
      unfold alGet
      rw [if_neg (fun hh => h (hk ▸ hh).symm), if_neg (fun hh => h (hk ▸ hh).symm)]
    · rw [if_neg hk]
      unfold alGet
      by_cases hq : k2 = q
      · rw [if_pos hq, if_pos hq]
      · rw [if_neg hq, if_neg hq]
        exact ih

theorem alGet_mem {κ ν : Type} [DecidableEq κ] (l : List (κ × ν))
    (k : κ) (v : ν) (h : alGet l k = some v) : (k, v) ∈ l := by
  induction l with
  | nil => exact absurd h (by simp [alGet])
  | cons p r ih =>
    rcases p with ⟨k2, w⟩
    unfold alGet at h
    by_cases hk : k2 = k
    · rw [if_pos hk] at h
      cases h
      subst hk
      exact List.mem_cons_self _ _
    · rw [if_neg hk] at h
      exact List.mem_cons_of_mem _ (ih h)

/-! ### State-relation preservation combinators -/

theorem mPres_bind {R : NodeState → NodeState → Prop}
    (ht : ∀ a b c, R a b → R b c → R a c) {α β : Type} {m : M α}
    {k : α → M β} (hm : mPres R m) (hk : ∀ a, mPres R (k a)) :
    mPres R (m >>= k) := by
  intro s
  rw [M_bind_apply]
  rcases hms : m s with ⟨r, s1⟩
  have h1 := hm s
  rw [hms] at h1
  cases r with
  | ok a =>
    dsimp only
    exact ht _ _ _ h1 (hk a s1)
  | error e =>
    dsimp only
    exact h1

theorem txKeep_bind {α β : Type} {m : M α} {k : α → M β}
    (hm : mPres txKeep m) (hk : ∀ a, mPres txKeep (k a)) :
    mPres txKeep (m >>= k) :=
  mPres_bind (fun _ _ _ h1 h2 => ⟨h2.1.trans h1.1, h2.2.trans h1.2⟩) hm hk

theorem txKeep_pure {α : Type} (a : α) : mPres txKeep (pure a : M α) :=
  fun _ => ⟨rfl, rfl⟩

theorem txKeep_mGet : mPres txKeep mGet := fun _ => ⟨rfl, rfl⟩

theorem txKeep_mThrow {α : Type} (e : Err) :
    mPres txKeep (mThrow e : M α) := fun _ => ⟨rfl, rfl⟩

theorem txKeep_mAssert (b : Bool) : mPres txKeep (mAssert b) := by
  cases b <;> exact fun _ => ⟨rfl, rfl⟩

theorem txKeep_mOfOption {α : Type} (e : Err) (o : Option α) :
    mPres txKeep (mOfOption e o) := by
  cases o <;> exact fun _ => ⟨rfl, rfl⟩

theorem txKeep_send (m : OutMsg) : mPres txKeep (send m) :=
  fun _ => ⟨rfl, rfl⟩

/-! ### Claim C5 -/

/-- The bet-processing loop of receive_bet never touches the transaction
pool or the tracked hashes. -/
theorem rbLoop_pres (index : Nat) :
    ∀ fuel proc, mPres txKeep (rbLoop index fuel proc) := by
  intro fuel
  induction fuel with
  | zero =>
    intro proc
    exact txKeep_pure _
  | succ f ih =>
    intro proc
    have heq : rbLoop index (f + 1) proc = (do
        let s ← mGet
        let bmap ← mOfOption .keyError (alGet s.bets index)
        let hbp ← mOfOption .keyError (alGet s.highest_bet_processed index)
        match betsSeqGet bmap (hbp + 1) with
        | none => pure proc
        | some bb => do
          let op ← mOfOption .keyError (alGet s.opinions index)
          let pr := op.process_bet bb
          mMod fun s1 => { s1 with opinions := alSet s1.opinions index pr.2 }
          match pr.1 with
          | .error e => mThrow e
          | .ok r => do
            mAssert r
            mMod fun s1 => { s1 with
              highest_bet_processed := alSet s1.highest_bet_processed index (hbp + 1) }
            rbLoop index f (proc + 1)) := rfl
    rw [heq]
    refine txKeep_bind txKeep_mGet ?_
    intro s
    refine txKeep_bind (txKeep_mOfOption _ _) ?_
    intro bmap
    refine txKeep_bind (txKeep_mOfOption _ _) ?_
    intro hbp
    cases betsSeqGet bmap (hbp + 1) with
    | none => exact txKeep_pure _
    | some bb =>
      refine txKeep_bind (txKeep_mOfOption _ _) ?_
      intro op
      dsimp only
      refine txKeep_bind (fun s1 => ⟨rfl, rfl⟩) ?_
      intro u
      cases (op.process_bet bb).1 with
      | error e => exact txKeep_mThrow _
      | ok r =>
        refine txKeep_bind (txKeep_mAssert _) ?_
        intro v
        refine txKeep_bind (fun s1 => ⟨rfl, rfl⟩) ?_
        intro w
        exact ih (proc + 1)

/-- The receive_bet sanity checks never touch the transaction pool or the
tracked hashes. -/
theorem rbSanity_pres (index : Nat) : mPres txKeep (rbSanity index) := by
  unfold rbSanity
  refine txKeep_bind txKeep_mGet ?_
  intro s
  refine txKeep_bind (txKeep_mOfOption _ _) ?_
  intro bmap
  refine txKeep_bind (txKeep_mOfOption _ _) ?_
  intro hbp
  refine txKeep_bind (txKeep_mAssert _) ?_
  intro u
  refine txKeep_bind (txKeep_mOfOption _ _) ?_
  intro op
  exact txKeep_mAssert _

/-- The tail of receive_bet after the double-bet check never touches the
transaction pool or the tracked hashes. -/
theorem rbTail_pres (b : Bet) : mPres txKeep (rbTail b) := by
  unfold rbTail
  refine txKeep_bind txKeep_mGet ?_
  intro s2
  refine txKeep_bind (txKeep_mOfOption _ _) ?_
  intro bmap2
  refine txKeep_bind (fun s3 => ⟨rfl, rfl⟩) ?_
  intro u
  refine txKeep_bind txKeep_mGet ?_
  intro s3
  refine txKeep_bind (txKeep_mOfOption _ _) ?_
  intro bmap3
  refine txKeep_bind (rbLoop_pres _ _ _) ?_
  intro proc
  refine txKeep_bind (rbSanity_pres _) ?_
  intro v
  by_cases hp : proc = 0
  · rw [if_pos hp]
    refine txKeep_bind txKeep_mGet ?_
    intro s4
    by_cases hq : lafbGet s4 b.index < s4.now + 10
    · rw [if_pos hq]
      refine txKeep_bind (txKeep_mOfOption _ _) ?_
      intro hbp
      refine txKeep_bind (txKeep_send _) ?_
      intro w
      exact fun s5 => ⟨rfl, rfl⟩
    · rw [if_neg hq]
      exact txKeep_pure _
  · rw [if_neg hp]
    exact txKeep_pure _

/-- add_transaction on a transaction whose hash is not yet in the objects
cache: the transaction enters objects, time_received and the pool, its
hash is tracked, and the broadcast is recorded. -/
theorem add_transaction_fresh (t : Tx) (s : NodeState)
    (h : alGet s.objects t.hash = none) :
    add_transaction t true s = (.ok (), { s with
      objects := alSet s.objects t.hash (.tx t),
      time_received := alSet s.time_received t.hash s.now,
      txpool := alSet s.txpool t.hash t,
      tracked_tx_hashes := s.tracked_tx_hashes ++ [t.hash],
      out := s.out ++ [.broadcast (.txMsg t)] }) := by
  unfold add_transaction
  rw [M_bind_apply, mGet_apply]
  dsimp only
  rw [if_pos (Or.inl h)]
  rw [M_bind_apply, mMod_apply]
  dsimp only
  rw [if_pos rfl]
  rw [M_bind_apply, mMod_apply]
  dsimp only
  rw [send_apply]

/-- C5: on a not-yet-seen bet from a known guardian whose (index, seq)
slot is already occupied, receive_bet submits the slashBets transaction
into the pool as a tracked transaction addressed to Casper; when the
occupied slot holds the identical bet the node has necessarily already
seen its hash (every stored bet went through the objects cache) and
receive_bet is a no-op. -/
theorem claim_C5_theorem (oc : Oracle) (b stored : Bet) (s : NodeState)
    (bmap : List (Nat × Bet))
    (hbm : alGet s.bets b.index = some bmap) :
    (alGet s.objects b.hash = none →
     (alGet s.opinions b.index).isSome = true →
     alGet bmap b.seq = some stored →
     alGet s.objects (slashTxOf oc stored b).hash = none →
     (slashTxOf oc stored b).hash ≠ b.hash →
     alGet (receive_bet oc b s).2.txpool (slashTxOf oc stored b).hash =
       some (slashTxOf oc stored b) ∧
     (slashTxOf oc stored b).hash ∈ (receive_bet oc b s).2.tracked_tx_hashes ∧
     (slashTxOf oc stored b).toAddr = oc.CASPER ∧
     (slashTxOf oc stored b).data =
       slashBetsData stored.payloadBytes b.payloadBytes) ∧
    ((∀ p, p ∈ bmap → (alGet s.objects (Prod.snd p).hash).isSome = true) →
     alGet bmap b.seq = some b →
     (receive_bet oc b s).2 = s) := by
  constructor
  · intro hfresh hop hstored hfreshT hne
    have hcond : ¬ ((alGet s.objects b.hash).isSome = true ∨
        alGet s.opinions b.index = none) := by
      rintro (h1 | h2)
      · rw [hfresh] at h1
        simp at h1
      · rw [h2] at hop
        simp at hop
    have hSB : alGet ({ s with
        objects := alSet s.objects b.hash (.bet b),
        time_received := alSet s.time_received b.hash s.now,
        out := s.out ++ [.broadcast (.betMsg b.serialize)] } :
          NodeState).objects (slashTxOf oc stored b).hash = none := by
      dsimp only
      rw [alGet_alSet_ne _ _ _ _ hne]
      exact hfreshT
    have hrb : receive_bet oc b s = rbTail b { s with
        objects := alSet (alSet s.objects b.hash (.bet b))
          (slashTxOf oc stored b).hash (.tx (slashTxOf oc stored b)),
        time_received := alSet (alSet s.time_received b.hash s.now)
          (slashTxOf oc stored b).hash s.now,
        txpool := alSet s.txpool (slashTxOf oc stored b).hash
          (slashTxOf oc stored b),
        tracked_tx_hashes := s.tracked_tx_hashes ++
          [(slashTxOf oc stored b).hash],
        out := (s.out ++ [.broadcast (.betMsg b.serialize)]) ++
          [.broadcast (.txMsg (slashTxOf oc stored b))] } := by
      unfold receive_bet
      rw [M_bind_apply, mGet_apply]
      dsimp only
      rw [if_neg hcond]
      rw [M_bind_apply, mMod_apply]
      dsimp only
      rw [M_bind_apply, send_apply]
      dsimp only
      rw [M_bind_apply, mGet_apply]
      dsimp only
      rw [hbm, mOfOption_some, M_bind_apply, pure_apply]
      dsimp only
      rw [hstored]
      dsimp only
      rw [M_bind_apply]
      rw [add_transaction_fresh _ _ hSB]
    refine ⟨?_, ?_, rfl, rfl⟩
    · rw [hrb, ((rbTail_pres b) _).1]
      dsimp only
      exact alGet_alSet_self _ _ _
    · rw [hrb, ((rbTail_pres b) _).2]
      dsimp only
      simp
  · intro hinv hsame
    have hsome : (alGet s.objects b.hash).isSome = true :=
      hinv (b.seq, b) (alGet_mem bmap b.seq b hsame)
    unfold receive_bet
    rw [M_bind_apply, mGet_apply]
    dsimp only
    rw [if_pos (Or.inl hsome)]
    rfl

theorem claim_C5_witness :
    (alGet (receive_bet c5Oracle c5Bet c5State).2.txpool
        (slashTxOf c5Oracle c5Stored c5Bet).hash =
      some (slashTxOf c5Oracle c5Stored c5Bet) ∧
     (slashTxOf c5Oracle c5Stored c5Bet).hash ∈
      (receive_bet c5Oracle c5Bet c5State).2.tracked_tx_hashes) ∧
    (receive_bet c5Oracle c5Bet c5State2).2 = c5State2 := by
  constructor
  · have h := (claim_C5_theorem c5Oracle c5Bet c5Stored c5State
      [(0, c5Stored)] (by decide)).1 (by decide) (by decide) (by decide)
      (by decide) (by decide)
    exact ⟨h.1, h.2.1⟩
  · exact (claim_C5_theorem c5Oracle c5Bet c5Bet c5State2
      [(0, c5Bet)] (by decide)).2 (by decide) (by decide)

/-! ### Claim C7 -/

/-- Element-wise description of the successful coercion pass: starting at
enumeration position i0, the output keeps each srp entry unless the state
root at the enumeration position (i0 plus the offset) is the zero hash, in
which case FINALITY_LOW is produced. -/
theorem coerceSrp_ok (st : List (Option Hash)) :
    ∀ (l : List Q) (i0 : Nat) (co : List Q),
      coerceSrp st l i0 = .ok co →
      co.length = l.length ∧
      (∀ j x, l[j]? = some x → ∃ e, st[i0 + j]? = some e ∧
        co[j]? = some (if e ≠ some zeroHash then x else FINALITY_LOW)) := by
  intro l
  induction l with
  | nil =>
    intro i0 co h
    unfold coerceSrp at h
    cases h
    exact ⟨rfl, fun j x hx => absurd hx (by simp)⟩
  | cons y r ih =>
    intro i0 co h
    unfold coerceSrp at h
    cases hp : pyGet st (i0 : Int) with
    | none =>
      rw [hp] at h
      exact absurd h (by simp)
    | some e =>
      rw [hp] at h
      dsimp only at h
      cases hc : coerceSrp st r (i0 + 1) with
      | error err =>
        rw [hc] at h
        exact absurd h (by simp)
      | ok tl =>
        rw [hc] at h
        dsimp only at h
        cases h
        obtain ⟨hlen, hall⟩ := ih (i0 + 1) tl hc
        refine ⟨by simp [hlen], ?_⟩
        intro j x hx
        cases j with
        | zero =>
          rw [List.getElem?_cons_zero] at hx
          cases hx
          refine ⟨e, ?_, by rw [List.getElem?_cons_zero]⟩
          rw [Nat.add_zero, ← pyGet_natCast]
          exact hp
        | succ n =>
          rw [List.getElem?_cons_succ] at hx
          obtain ⟨e2, he2, hco⟩ := hall n x hx
          refine ⟨e2, ?_, ?_⟩
          · have hadd : i0 + (n + 1) = i0 + 1 + n := by omega
            rw [hadd]
            exact he2
          · rw [List.getElem?_cons_succ]
            exact hco

/-- C7 (corrected): in the bet built by mkbet, stateroot_probs is the
reverse of the coerced srp from srprobstart on, where the element at
position j of srp is coerced to FINALITY_LOW exactly when stateroots[j] is
the zero hash: the coercion consults the state root at the enumeration
position j, not at the height sign_from + j that the probability refers
to. -/
theorem claim_C7_theorem (s : NodeState) (srp : List Q)
    (sign_from rootstart : Nat) (bet : Bet)
    (hok : mkbetBuildBet s srp sign_from rootstart = .ok bet) :
    ∃ co : List Q,
      coerceSrp s.stateroots srp 0 = .ok co ∧
      bet.stateroot_probs =
        (co.drop (max sign_from s.induction_height - sign_from)).reverse ∧
      co.length = srp.length ∧
      ∀ (j : Nat) (x : Q), srp[j]? = some x → ∃ e, s.stateroots[j]? = some e ∧
        co[j]? = some (if e ≠ some zeroHash then x else FINALITY_LOW) := by
  unfold mkbetBuildBet at hok
  cases hm : s.recently_discovered_blocks.min? with
  | none =>
    rw [hm] at hok
    exact absurd hok (by simp)
  | some mrdb =>
    rw [hm] at hok
    dsimp only at hok
    split at hok
    · exact absurd hok (by simp)
    · split at hok
      · exact absurd hok (by simp)
      · cases hc : coerceSrp s.stateroots srp 0 with
        | error e =>
          rw [hc] at hok
          exact absurd hok (by simp)
        | ok co =>
          rw [hc] at hok
          dsimp only at hok
          refine ⟨co, rfl, ?_, (coerceSrp_ok s.stateroots srp 0 co hc).1, ?_⟩
          · cases hok
            rfl
          · intro j x hx
            obtain ⟨e, he, hco⟩ := (coerceSrp_ok s.stateroots srp 0 co hc).2 j x hx
            rw [Nat.zero_add] at he
            exact ⟨e, he, hco⟩

/-- C7 counterexample: from c7State (signing from height 1) the emitted
stateroot_probs coerces the entry for height 1 to FINALITY_LOW because
stateroots[0] is the zero hash, while the spec reading, which consults
stateroots[1], keeps the entry at 3/4. -/
theorem claim_C7_counterexample :
    (mkbetBuildBet c7State c7Srp 1 1).map Bet.stateroot_probs =
      .ok [qmk 3 5, FINALITY_LOW] ∧
    specStaterootProbs c7State c7Srp 1 = [qmk 3 5, qmk 3 4] ∧
    FINALITY_LOW ≠ qmk 3 4 := by
  refine ⟨by decide, by decide, by decide⟩

theorem claim_C7_witness :
    mkbetBuildBet c7State c7Srp 1 1 = .ok c7WitBet ∧
    (∃ co : List Q,
      coerceSrp c7State.stateroots c7Srp 0 = .ok co ∧
      c7WitBet.stateroot_probs =
        (co.drop (max 1 c7State.induction_height - 1)).reverse ∧
      co.length = c7Srp.length ∧
      ∀ (j : Nat) (x : Q), c7Srp[j]? = some x → ∃ e, c7State.stateroots[j]? = some e ∧
        co[j]? = some (if e ≠ some zeroHash then x else FINALITY_LOW)) :=
  ⟨by decide, claim_C7_theorem c7State c7Srp 1 1 c7WitBet (by decide)⟩

/-! ### Claim C8 -/

/-- C8: the GETBLOCK branch of the mkbet height loop is not rate-limited.
Whenever the ask flag is set for preferred hash H and the recorded
timestamp t for H satisfies t < now + 12 — which holds for every past
timestamp, however recent — the GETBLOCK for H is broadcast again, and the
new timestamp is recorded under the integer height key, leaving the entry
under the hash key unchanged. -/
theorem claim_C8_theorem (h : Nat) (H : Hash) (s : NodeState) (t : Q)
    (hprev : alGet s.last_asked_for_block (.hsh H) = some t)
    (hlt : t < s.now + 12) :
    (mkbetAsk h (some H) true s).1 = .ok () ∧
    (mkbetAsk h (some H) true s).2.out =
      s.out ++ [.broadcast (.getblock H)] ∧
    alGet (mkbetAsk h (some H) true s).2.last_asked_for_block (.hsh H) =
      some t := by
  have hne : GBKey.hsh H ≠ GBKey.num h := fun hh => GBKey.noConfusion hh
  unfold mkbetAsk
  rw [if_pos rfl]
  dsimp only
  rw [M_bind_apply, mGet_apply]
  dsimp only
  rw [hprev]
  dsimp only
  rw [if_pos (decide_eq_true hlt)]
  rw [M_bind_apply, send_apply]
  dsimp only
  rw [mMod_apply]
  refine ⟨rfl, rfl, ?_⟩
  dsimp only
  rw [alGet_alSet_ne _ _ _ _ hne]
  exact hprev

theorem claim_C8_witness :
    (mkbetAsk 0 (some [7]) true c8State).1 = .ok () ∧
    (mkbetAsk 0 (some [7]) true c8State).2.out =
      c8State.out ++ [.broadcast (.getblock [7])] ∧
    alGet (mkbetAsk 0 (some [7]) true c8State).2.last_asked_for_block
      (.hsh [7]) = some 99 :=
  claim_C8_theorem 0 [7] c8State 99 (by decide) (by decide)

/-! ### Claim C10 -/

/-- One successful (True-returning) process_bet call keeps the four
opinion arrays at one shared length. -/
theorem processBet_lensOk (o : Opinion) (b : Bet) (o2 : Opinion)
    (hl : lensOk o) (h : o.process_bet b = (.ok true, o2)) : lensOk o2 := by
  unfold Opinion.process_bet at h
  split at h
  · exact absurd h (by simp)
  · split at h
    · exact absurd h (by simp)
    · split at h
      · cases h
        exact hl
      · dsimp only at h
        obtain ⟨hl1, hl2, hl3⟩ := hl
        split at h
        · exact absurd h (by simp)
        · split at h
          · exact absurd h (by simp)
          · split at h
            · exact absurd h (by simp)
            · split at h
              · exact absurd h (by simp)
              · rename_i pA l1 hb1 pB l2 hb2 pC l3 hb3 pD el4 hb4
                cases h
                have e1 : l1.length = o.probs.length + (b.max_height + 1 - o.probs.length) := by
                  have := @betWrite_length (Option Q) Q b.max_height some b.probs 0
                    (o.probs ++ List.replicate (b.max_height + 1 - o.probs.length) none)
                  rw [hb1] at this
                  simpa using this
                have e2 : l2.length = o.blockhashes.length + (b.max_height + 1 - o.probs.length) := by
                  have := @betWrite_length (Option Hash) Hash b.max_height some b.blockhashes 0
                    (o.blockhashes ++ List.replicate (b.max_height + 1 - o.probs.length) none)
                  rw [hb2] at this
                  simpa using this
                have e3 : l3.length = o.stateroots.length + (b.max_height + 1 - o.probs.length) := by
                  have := @betWrite_length (Option Hash) (Option Hash) b.max_height id b.stateroots 0
                    (o.stateroots ++ List.replicate (b.max_height + 1 - o.probs.length) none)
                  rw [hb3] at this
                  simpa using this
                have e4 : el4.length = o.stateroot_probs.length + (b.max_height + 1 - o.probs.length) := by
                  have := @betWrite_length (Option Q) Q b.max_height some b.stateroot_probs 0
                    (o.stateroot_probs ++ List.replicate (b.max_height + 1 - o.probs.length) none)
                  rw [hb4] at this
                  simpa using this
                exact ⟨by simp only [e1, e2]; omega,
                       by simp only [e1, e3]; omega,
                       by simp only [e1, e4]; omega⟩

/-- C10: after any sequence of process_bet calls that all return True on
an opinion whose arrays start at one shared length, the four arrays
blockhashes, stateroots, probs and stateroot_probs still share one length
(which equals max_height + 1), and at or beyond that length get_prob,
get_blockhash and get_stateroot all answer the no-value result instead of
failing. -/
theorem claim_C10_theorem (o : Opinion) (bs : List Bet) (o2 : Opinion)
    (h0 : lensOk o) (h : processMany o bs = some o2) :
    lensOk o2 ∧ (o2.probs.length : Int) = o2.max_height + 1 ∧
    ∀ hh : Nat, o2.probs.length ≤ hh →
      o2.get_prob hh = none ∧ o2.get_blockhash hh = .ok none ∧
      o2.get_stateroot hh = .ok none := by
  have hlens : lensOk o2 := by
    induction bs generalizing o with
    | nil =>
      unfold processMany at h
      cases h
      exact h0
    | cons b r ih =>
      unfold processMany at h
      split at h
      · rename_i o1 hb
        exact ih o1 (processBet_lensOk o b o1 h0 hb) h
      · exact absurd h (by simp)
  refine ⟨hlens, ?_, ?_⟩
  · unfold Opinion.max_height
    omega
  · intro hh hge
    have hlt : ¬ hh < o2.probs.length := by omega
    unfold Opinion.get_prob Opinion.get_blockhash Opinion.get_stateroot
    rw [if_neg hlt, if_neg hlt, if_neg hlt]
    exact ⟨rfl, rfl, rfl⟩

/-- C10 (witness): the theorem evaluated on the two-bet run c10Bets. -/
theorem claim_C10_witness :
    lensOk c10Out ∧ (c10Out.probs.length : Int) = c10Out.max_height + 1 ∧
    ∀ hh : Nat, c10Out.probs.length ≤ hh →
      c10Out.get_prob hh = none ∧ c10Out.get_blockhash hh = .ok none ∧
      c10Out.get_stateroot hh = .ok none :=
  claim_C10_theorem c10Op c10Bets c10Out (by decide) (by decide)

/-! ### Claim C6 -/

/-- C6 (counterexample): deserialize(serialize(bet)) is NOT equal to the
original bet in every field: the probs entry 2/5 comes back as its
one-byte quantization 1/3. -/
theorem claim_C6_counterexample :
    Bet.deserialize (Bet.serialize c6Bet) ≠ c6Bet ∧
    (Bet.deserialize (Bet.serialize c6Bet)).probs = [qmk 1 3] := by
  constructor
  · decide
  · decide

/-- C6 (amended): deserialize(serialize(bet)) recovers index, max_height,
blockhashes, stateroots, prevhash, seq and sig exactly, maps each of
probs and stateroot_probs through the one-byte quantization
decode_prob ∘ encode_prob, and has the same hash as the original; full
equality with the original holds exactly on bets whose probability
entries are already table values (quantization fixed points). -/
theorem claim_C6_theorem (b : Bet) :
    (Bet.deserialize b.serialize).index = b.index ∧
    (Bet.deserialize b.serialize).max_height = b.max_height ∧
    (Bet.deserialize b.serialize).blockhashes = b.blockhashes ∧
    (Bet.deserialize b.serialize).stateroots = b.stateroots ∧
    (Bet.deserialize b.serialize).prevhash = b.prevhash ∧
    (Bet.deserialize b.serialize).seq = b.seq ∧
    (Bet.deserialize b.serialize).sig = b.sig ∧
    (Bet.deserialize b.serialize).probs =
      b.probs.map (fun p => decode_prob (encode_prob p)) ∧
    (Bet.deserialize b.serialize).stateroot_probs =
      b.stateroot_probs.map (fun p => decode_prob (encode_prob p)) ∧
    (Bet.deserialize b.serialize).hash = b.hash ∧
    ((∀ p ∈ b.probs, decode_prob (encode_prob p) = p) →
      (∀ p ∈ b.stateroot_probs, decode_prob (encode_prob p) = p) →
      Bet.deserialize b.serialize = b) := by
  have h1core : ∀ l : List Q, (∀ p ∈ l, decode_prob (encode_prob p) = p) →
      List.map (decode_prob ∘ encode_prob) l = l := by
    intro l hl
    have hmc : List.map (decode_prob ∘ encode_prob) l = List.map id l :=
      List.map_congr_left (fun p hm => hl p hm)
    rw [hmc]
    exact List.map_id l
  refine ⟨rfl, rfl, rfl, rfl, rfl, rfl, rfl, ?_, ?_, ?_, ?_⟩
  · simp [Bet.serialize, Bet.deserialize]
  · simp [Bet.serialize, Bet.deserialize]
  · show sha3BD (Bet.serialize (Bet.deserialize b.serialize)) = sha3BD b.serialize
    have hs : Bet.serialize (Bet.deserialize b.serialize) = b.serialize := by
      simp only [Bet.serialize, Bet.deserialize, List.map_map]
      have hb1 : List.map (encode_prob ∘ decode_prob ∘ encode_prob) b.probs =
          List.map encode_prob b.probs :=
        List.map_congr_left (fun p _ => encode_decode_encode p)
      have hb2 : List.map (encode_prob ∘ decode_prob ∘ encode_prob) b.stateroot_probs =
          List.map encode_prob b.stateroot_probs :=
        List.map_congr_left (fun p _ => encode_decode_encode p)
      rw [hb1, hb2]
    rw [hs]
  · intro hp hsp
    have h1 := h1core b.probs hp
    have h2 := h1core b.stateroot_probs hsp
    cases b with
    | mk i mh pr bh sr srp ph sq sg =>
      simp only [Bet.serialize, Bet.deserialize, List.map_map] at *
      simp [Bet.mk.injEq, h1, h2]

/-- C6 (witness): the amended claim evaluated on c6WitBet, whose
probability entries are quantization fixed points, gives the exact
round trip including hash. -/
theorem claim_C6_witness :
    Bet.deserialize c6WitBet.serialize = c6WitBet ∧
    (Bet.deserialize c6WitBet.serialize).hash = c6WitBet.hash := by
  have h := claim_C6_theorem c6WitBet
  exact ⟨h.2.2.2.2.2.2.2.2.2.2 (by decide) (by decide), h.2.2.2.2.2.2.2.2.2.1⟩

/-! ### Claim C2: monotonicity of max_finalized_height

max_finalized_height is written in exactly one place, the finalization
advance of the mkbet height loop (mkbetFinalize); every other operation
leaves the field untouched.  The lemmas below push the relation mfhLe
through every handler. -/

theorem mfhLe_bind {α β : Type} {m : M α} {k : α → M β}
    (hm : mPres mfhLe m) (hk : ∀ a, mPres mfhLe (k a)) :
    mPres mfhLe (m >>= k) :=
  @mPres_bind mfhLe (fun _ _ _ h1 h2 => le_trans h1 h2) _ _ m k hm hk

theorem mfhLe_pure {α : Type} (a : α) : mPres mfhLe (pure a : M α) :=
  fun _ => le_refl _

theorem mfhLe_mGet : mPres mfhLe mGet := fun _ => le_refl _

theorem mfhLe_mThrow {α : Type} (e : Err) : mPres mfhLe (mThrow e : M α) :=
  fun _ => le_refl _

theorem mfhLe_mAssert (b : Bool) : mPres mfhLe (mAssert b) := by
  cases b <;> exact fun _ => le_refl _

theorem mfhLe_mOfOption {α : Type} (e : Err) (o : Option α) :
    mPres mfhLe (mOfOption e o) := by
  cases o <;> exact fun _ => le_refl _

theorem mfhLe_send (m : OutMsg) : mPres mfhLe (send m) :=
  fun _ => le_refl _

/-- A bind whose head is mGet feeds the current state to the
continuation. -/
theorem mPres_bind_mGet {R : NodeState → NodeState → Prop} {β : Type}
    {k : NodeState → M β} (hk : ∀ s, R s ((k s) s).2) :
    mPres R (mGet >>= k) := fun s => hk s

theorem mfhLe_mFor {γ : Type} (l : List γ) (f : γ → M Unit)
    (hf : ∀ x, mPres mfhLe (f x)) : mPres mfhLe (mFor l f) := by
  induction l with
  | nil => exact mfhLe_pure _
  | cons x r ih => exact mfhLe_bind (hf x) fun _ => ih

theorem mfhLe_mFold {γ δ : Type} (f : γ → δ → M δ)
    (hf : ∀ x d, mPres mfhLe (f x d)) :
    ∀ (l : List γ) (init : δ), mPres mfhLe (mFold l f init) := by
  intro l
  induction l with
  | nil => intro init; exact mfhLe_pure _
  | cons x r ih => intro init; exact mfhLe_bind (hf x init) fun a => ih a

theorem mfhLe_mCollect {α : Type} :
    ∀ l : List (Option α), mPres mfhLe (mCollect l) := by
  intro l
  induction l with
  | nil => exact mfhLe_pure _
  | cons o r ih =>
    cases o with
    | some a => exact mfhLe_bind ih fun tl => mfhLe_pure _
    | none => exact mfhLe_mThrow _

theorem stateAtM_mfh (h : Int) : mPres mfhLe (stateAtM h) := fun s => by
  rw [stateAtM_state h s]

theorem gos_state (s : NodeState) : (get_optimistic_state s).2 = s := by
  unfold get_optimistic_state
  rw [M_bind_apply, mGet_apply]
  dsimp only
  exact stateAtM_state _ s

theorem gfs_state (s : NodeState) : (get_finalized_state s).2 = s := by
  unfold get_finalized_state
  rw [M_bind_apply, mGet_apply]
  dsimp only
  exact stateAtM_state _ s

theorem gos_mfh : mPres mfhLe get_optimistic_state := fun s => by
  rw [gos_state s]

theorem gfs_mfh : mPres mfhLe get_finalized_state := fun s => by
  rw [gfs_state s]

theorem add_transaction_mfh (t : Tx) (track : Bool) :
    mPres mfhLe (add_transaction t track) := by
  unfold add_transaction
  refine mfhLe_bind mfhLe_mGet ?_
  intro s
  by_cases hc : alGet s.objects t.hash = none ∨ timeGet s t.hash < s.now - 15
  · rw [if_pos hc]
    refine mfhLe_bind (fun s1 => le_refl _) ?_
    intro u
    refine mfhLe_bind ?_ ?_
    · cases track with
      | false => exact mfhLe_pure _
      | true => exact fun s1 => le_refl _
    · intro v
      exact mfhLe_send _
  · rw [if_neg hc]
    exact mfhLe_pure _

theorem apScanM_mfh : ∀ (fuel : Nat) (h : Int), mPres mfhLe (apScanM fuel h) := by
  intro fuel
  induction fuel with
  | zero => intro h; exact mfhLe_pure _
  | succ f ih =>
    intro h
    have heq : apScanM (f + 1) h = (do
        let s ← mGet
        if 0 ≤ h then
          match pyGet s.stateroots h with
          | none => mThrow .indexError
          | some e =>
            if e = none ∨ e = some zeroHash then apScanM f (h - 1) else pure h
        else pure h) := rfl
    rw [heq]
    refine mfhLe_bind mfhLe_mGet ?_
    intro s
    by_cases hc : 0 ≤ h
    · rw [if_pos hc]
      cases pyGet s.stateroots h with
      | none => exact mfhLe_mThrow _
      | some e =>
        dsimp only
        by_cases he : e = none ∨ e = some zeroHash
        · rw [if_pos he]
          exact ih (h - 1)
        · rw [if_neg he]
          exact mfhLe_pure _
    · rw [if_neg hc]
      exact mfhLe_pure _

theorem apLoop_mfh (oc : Oracle) (cst : CState) :
    ∀ fuel, mPres mfhLe (apLoop oc cst fuel) := by
  intro fuel
  induction fuel with
  | zero => exact fun s => le_refl _
  | succ f ih =>
    have heq : apLoop oc cst (f + 1) = (do
        let s ← mGet
        let h := s.proposers.length
        let g := oc.get_guardian_index cst h
        mMod fun s1 => { s1 with proposers := s1.proposers ++ [g] }
        let s2 ← mGet
        if (g : Int) = s2.index then
          mMod fun s3 => { s3 with next_block_to_produce := some (h : Int) }
        else apLoop oc cst f) := rfl
    rw [heq]
    refine mfhLe_bind mfhLe_mGet ?_
    intro s
    dsimp only
    refine mfhLe_bind (fun s1 => le_refl _) ?_
    intro u
    refine mfhLe_bind mfhLe_mGet ?_
    intro s2
    by_cases hc : (oc.get_guardian_index cst s.proposers.length : Int) = s2.index
    · rw [if_pos hc]
      exact fun s3 => le_refl _
    · rw [if_neg hc]
      exact ih

theorem add_proposers_mfh (oc : Oracle) : mPres mfhLe (add_proposers oc) := by
  unfold add_proposers
  refine mfhLe_bind mfhLe_mGet ?_
  intro s
  refine mfhLe_bind (apScanM_mfh _ _) ?_
  intro h
  refine mfhLe_bind mfhLe_mGet ?_
  intro s1
  refine mfhLe_bind ?_ ?_
  · by_cases h0 : 0 ≤ h
    · rw [if_pos h0]
      exact mfhLe_mOfOption _ _
    · rw [if_neg h0]
      exact mfhLe_pure _
  · intro cst
    dsimp only
    exact apLoop_mfh oc cst _

theorem ugsStep_mfh (oc : Oracle) (cst : CState) (i : Nat) :
    mPres mfhLe (ugsStep oc cst i) := by
  unfold ugsStep
  refine mfhLe_bind mfhLe_mGet ?_
  intro s
  dsimp only
  by_cases hc : s.counters.contains (oc.getGuardianCounter cst i) = true
  · rw [if_pos hc]
    exact mfhLe_pure _
  · rw [if_neg hc]
    refine mfhLe_bind (fun s1 => le_refl _) ?_
    intro u
    dsimp only
    refine mfhLe_bind (fun s1 => le_refl _) ?_
    intro v
    refine mfhLe_bind mfhLe_mGet ?_
    intro s1
    by_cases ha : oc.getGuardianAddress cst i = s1.addr
    · rw [if_pos ha]
      refine mfhLe_bind (fun s2 => le_refl _) ?_
      intro w
      refine mfhLe_bind (add_proposers_mfh oc) ?_
      intro x
      exact fun s2 => le_refl _
    · rw [if_neg ha]
      exact mfhLe_pure _

theorem update_guardian_set_mfh (oc : Oracle) (cst : CState) :
    mPres mfhLe (update_guardian_set oc cst) := by
  unfold update_guardian_set
  exact mfhLe_mFor _ _ (ugsStep_mfh oc cst)

theorem get_nonce_mfh (oc : Oracle) (optimistic : Bool) :
    mPres mfhLe (get_nonce oc optimistic) := by
  unfold get_nonce
  refine mfhLe_bind ?_ ?_
  · cases optimistic with
    | false => exact gfs_mfh
    | true => exact gos_mfh
  · intro cst
    refine mfhLe_bind mfhLe_mGet ?_
    intro s
    dsimp only
    refine mfhLe_bind (fun s1 => le_refl _) ?_
    intro u
    exact mfhLe_pure _

theorem join_mfh (oc : Oracle) : mPres mfhLe (join oc) := by
  unfold join
  dsimp only
  refine mfhLe_bind (get_nonce_mfh oc true) ?_
  intro nonce
  dsimp only
  refine mfhLe_bind (add_transaction_mfh _ _) ?_
  intro u
  exact fun s1 => le_refl _

theorem rsrLoop_mfh (oc : Oracle) :
    ∀ (l : List Nat) (cst : CState), mPres mfhLe (rsrLoop oc cst l) := by
  intro l
  induction l with
  | nil => intro cst; exact mfhLe_pure _
  | cons h rest ih =>
    intro cst
    have heq : rsrLoop oc cst (h :: rest) = (do
        if oc.blknum_of cst ≠ h then mThrow .assertError
        else do
          let s ← mGet
          let p ← mOfOption .indexError (pyGet s.probs (h : Int))
          let prob := if p.num = 0 then qHalf else p
          let blk ← mOfOption .indexError (pyGet s.blocks (h : Int))
          let newRoot := oc.transition cst (if prob ≥ qHalf then blk else none)
          let sr2 ← mOfOption .indexError (pySet s.stateroots (h : Int) (some newRoot))
          mMod fun s1 => { s1 with stateroots := sr2 }
          if oc.blknum_of (some newRoot) ≠ h + 1 then mThrow .assertError
          else rsrLoop oc (some newRoot) rest) := rfl
    rw [heq]
    by_cases hb : oc.blknum_of cst ≠ h
    · rw [if_pos hb]
      exact mfhLe_mThrow _
    · rw [if_neg hb]
      refine mfhLe_bind mfhLe_mGet ?_
      intro s
      refine mfhLe_bind (mfhLe_mOfOption _ _) ?_
      intro p
      dsimp only
      refine mfhLe_bind (mfhLe_mOfOption _ _) ?_
      intro blk
      dsimp only
      refine mfhLe_bind (mfhLe_mOfOption _ _) ?_
      intro sr2
      refine mfhLe_bind (fun s1 => le_refl _) ?_
      intro u
      by_cases hb2 : oc.blknum_of (some (oc.transition cst
          (if (if p.num = 0 then qHalf else p) ≥ qHalf then blk else none))) ≠ h + 1
      · rw [if_pos hb2]
        exact mfhLe_mThrow _
      · rw [if_neg hb2]
        exact ih _

theorem rsrZero_mfh : ∀ l : List Nat, mPres mfhLe (rsrZero l) := by
  intro l
  induction l with
  | nil => exact mfhLe_pure _
  | cons h rest ih =>
    have heq : rsrZero (h :: rest) = (do
        let s ← mGet
        let sr2 ← mOfOption .indexError (pySet s.stateroots (h : Int) (some zeroHash))
        mMod fun s1 => { s1 with stateroots := sr2 }
        rsrZero rest) := rfl
    rw [heq]
    refine mfhLe_bind mfhLe_mGet ?_
    intro s
    refine mfhLe_bind (mfhLe_mOfOption _ _) ?_
    intro sr2
    refine mfhLe_bind (fun s1 => le_refl _) ?_
    intro u
    exact ih

theorem rsrCheckLoop_mfh : ∀ l : List Nat, mPres mfhLe (rsrCheckLoop l) := by
  intro l
  induction l with
  | nil => exact mfhLe_pure _
  | cons i rest ih =>
    have heq : rsrCheckLoop (i :: rest) = (do
        let s ← mGet
        let e ← mOfOption .indexError (pyGet s.stateroots (i : Int))
        if e = some zeroHash ∨ e = none then mThrow .assertError
        else rsrCheckLoop rest) := rfl
    rw [heq]
    refine mfhLe_bind mfhLe_mGet ?_
    intro s
    refine mfhLe_bind (mfhLe_mOfOption _ _) ?_
    intro e
    by_cases hc : e = some zeroHash ∨ e = none
    · rw [if_pos hc]
      exact mfhLe_mThrow _
    · rw [if_neg hc]
      exact ih

theorem recalc_state_roots_mfh (oc : Oracle) :
    mPres mfhLe (recalc_state_roots oc) := by
  unfold recalc_state_roots
  refine mfhLe_bind mfhLe_mGet ?_
  intro s
  dsimp only
  refine mfhLe_bind (stateAtM_mfh _) ?_
  intro cst
  refine mfhLe_bind (rsrLoop_mfh oc _ cst) ?_
  intro u
  refine mfhLe_bind (rsrZero_mfh _) ?_
  intro v
  refine mfhLe_bind (fun s1 => le_refl _) ?_
  intro w
  exact rsrCheckLoop_mfh _

theorem rbLoop_mfh (index : Nat) :
    ∀ fuel proc, mPres mfhLe (rbLoop index fuel proc) := by
  intro fuel
  induction fuel with
  | zero =>
    intro proc
    exact mfhLe_pure _
  | succ f ih =>
    intro proc
    have heq : rbLoop index (f + 1) proc = (do
        let s ← mGet
        let bmap ← mOfOption .keyError (alGet s.bets index)
        let hbp ← mOfOption .keyError (alGet s.highest_bet_processed index)
        match betsSeqGet bmap (hbp + 1) with
        | none => pure proc
        | some bb => do
          let op ← mOfOption .keyError (alGet s.opinions index)
          let pr := op.process_bet bb
          mMod fun s1 => { s1 with opinions := alSet s1.opinions index pr.2 }
          match pr.1 with
          | .error e => mThrow e
          | .ok r => do
            mAssert r
            mMod fun s1 => { s1 with
              highest_bet_processed := alSet s1.highest_bet_processed index (hbp + 1) }
            rbLoop index f (proc + 1)) := rfl
    rw [heq]
    refine mfhLe_bind mfhLe_mGet ?_
    intro s
    refine mfhLe_bind (mfhLe_mOfOption _ _) ?_
    intro bmap
    refine mfhLe_bind (mfhLe_mOfOption _ _) ?_
    intro hbp
    cases betsSeqGet bmap (hbp + 1) with
    | none => exact mfhLe_pure _
    | some bb =>
      refine mfhLe_bind (mfhLe_mOfOption _ _) ?_
      intro op
      dsimp only
      refine mfhLe_bind (fun s1 => le_refl _) ?_
      intro u
      cases (op.process_bet bb).1 with
      | error e => exact mfhLe_mThrow _
      | ok r =>
        refine mfhLe_bind (mfhLe_mAssert _) ?_
        intro v
        refine mfhLe_bind (fun s1 => le_refl _) ?_
        intro w
        exact ih (proc + 1)

theorem rbSanity_mfh (index : Nat) : mPres mfhLe (rbSanity index) := by
  unfold rbSanity
  refine mfhLe_bind mfhLe_mGet ?_
  intro s
  refine mfhLe_bind (mfhLe_mOfOption _ _) ?_
  intro bmap
  refine mfhLe_bind (mfhLe_mOfOption _ _) ?_
  intro hbp
  refine mfhLe_bind (mfhLe_mAssert _) ?_
  intro u
  refine mfhLe_bind (mfhLe_mOfOption _ _) ?_
  intro op
  exact mfhLe_mAssert _

theorem rbTail_mfh (b : Bet) : mPres mfhLe (rbTail b) := by
  unfold rbTail
  refine mfhLe_bind mfhLe_mGet ?_
  intro s2
  refine mfhLe_bind (mfhLe_mOfOption _ _) ?_
  intro bmap2
  refine mfhLe_bind (fun s3 => le_refl _) ?_
  intro u
  refine mfhLe_bind mfhLe_mGet ?_
  intro s3
  refine mfhLe_bind (mfhLe_mOfOption _ _) ?_
  intro bmap3
  refine mfhLe_bind (rbLoop_mfh _ _ _) ?_
  intro proc
  refine mfhLe_bind (rbSanity_mfh _) ?_
  intro v
  by_cases hp : proc = 0
  · rw [if_pos hp]
    refine mfhLe_bind mfhLe_mGet ?_
    intro s4
    by_cases hq : lafbGet s4 b.index < s4.now + 10
    · rw [if_pos hq]
      refine mfhLe_bind (mfhLe_mOfOption _ _) ?_
      intro hbp
      refine mfhLe_bind (mfhLe_send _) ?_
      intro w
      exact fun s5 => le_refl _
    · rw [if_neg hq]
      exact mfhLe_pure _
  · rw [if_neg hp]
    exact mfhLe_pure _

theorem receive_bet_mfh (oc : Oracle) (b : Bet) :
    mPres mfhLe (receive_bet oc b) := by
  unfold receive_bet
  refine mfhLe_bind mfhLe_mGet ?_
  intro s
  by_cases hc : (alGet s.objects b.hash).isSome = true ∨
      alGet s.opinions b.index = none
  · rw [if_pos hc]
    exact mfhLe_pure _
  · rw [if_neg hc]
    refine mfhLe_bind (fun s1 => le_refl _) ?_
    intro u
    refine mfhLe_bind (mfhLe_send _) ?_
    intro v
    refine mfhLe_bind mfhLe_mGet ?_
    intro s1
    refine mfhLe_bind (mfhLe_mOfOption _ _) ?_
    intro bmap
    refine mfhLe_bind ?_ ?_
    · cases alGet bmap b.seq with
      | some stored => exact add_transaction_mfh _ _
      | none => exact mfhLe_pure _
    · intro w
      exact rbTail_mfh b

theorem mkbetAsk_mfh (h : Nat) (nbh : Option Hash) (ask : Bool) :
    mPres mfhLe (mkbetAsk h nbh ask) := by
  unfold mkbetAsk
  cases ask with
  | false => exact mfhLe_pure _
  | true =>
    rw [if_pos rfl]
    cases nbh with
    | none => exact mfhLe_mThrow _
    | some hh =>
      dsimp only
      refine mfhLe_bind mfhLe_mGet ?_
      intro s
      dsimp only
      cases alGet s.last_asked_for_block (.hsh hh) with
      | none =>
        dsimp only
        rw [if_pos rfl]
        refine mfhLe_bind (mfhLe_send _) ?_
        intro u
        exact fun s1 => le_refl _
      | some t =>
        dsimp only
        by_cases hd : decide (t < s.now + 12) = true
        · rw [if_pos hd]
          refine mfhLe_bind (mfhLe_send _) ?_
          intro u
          exact fun s1 => le_refl _
        · rw [if_neg hd]
          exact mfhLe_pure _

theorem mkbetSwitch_mfh (h : Nat) (nbh : Option Hash) :
    mPres mfhLe (mkbetSwitch h nbh) := by
  unfold mkbetSwitch
  refine mfhLe_bind mfhLe_mGet ?_
  intro s
  refine mfhLe_bind (mfhLe_mOfOption _ _) ?_
  intro blkE
  cases blkE with
  | none => exact mfhLe_pure _
  | some blk =>
    dsimp only
    by_cases hne : nbh ≠ some blk.hash
    · rw [if_pos hne]
      cases nbh with
      | none => exact mfhLe_pure _
      | some hh =>
        dsimp only
        by_cases hz : hh = zeroHash
        · rw [if_pos hz]
          exact mfhLe_pure _
        · rw [if_neg hz]
          cases alGet s.objects hh with
          | none => exact mfhLe_pure _
          | some ob =>
            cases ob with
            | blk b2 =>
              dsimp only
              refine mfhLe_bind (mfhLe_mAssert _) ?_
              intro u
              refine mfhLe_bind mfhLe_mGet ?_
              intro s1
              refine mfhLe_bind (mfhLe_mOfOption _ _) ?_
              intro bl2
              exact fun s2 => le_refl _
            | bet bb => exact mfhLe_mThrow _
            | tx t => exact mfhLe_mThrow _
    · rw [if_neg hne]
      exact mfhLe_pure _

/-- The every-tenth-height deposit refresh leaves max_finalized_height
untouched. -/
theorem finalizeRefresh_mfhEq (oc : Oracle) (s1 : NodeState) :
    (((get_optimistic_state : M CState) >>= fun cst => mMod fun s2 =>
      let refreshed := s2.opinions.map (fun e =>
        (e.1, { e.2 with deposit_size := oc.getGuardianDeposit cst e.1 }))
      { s2 with opinions := refreshed }) s1).2.max_finalized_height =
    s1.max_finalized_height := by
  rw [M_bind_apply]
  rcases hg : get_optimistic_state s1 with ⟨r, s2⟩
  have h2 : s2 = s1 := by
    have hh := gos_state s1
    rw [hg] at hh
    exact hh
  subst h2
  cases r with
  | ok c =>
    dsimp only
    rfl
  | error e =>
    dsimp only

/-- The finalization advance writes max_finalized_height exactly when the
height is the successor of the current value, and then sets it to that
height; otherwise the field is untouched. -/
theorem mkbetFinalize_write (oc : Oracle) (h : Nat) (s : NodeState) :
    ((mkbetFinalize oc h s).2.max_finalized_height = s.max_finalized_height ∧
      ¬ ((h : Int) = s.max_finalized_height + 1)) ∨
    ((h : Int) = s.max_finalized_height + 1 ∧
      (mkbetFinalize oc h s).2.max_finalized_height =
        s.max_finalized_height + 1) := by
  by_cases hc : (h : Int) = s.max_finalized_height + 1
  · right
    refine ⟨hc, ?_⟩
    unfold mkbetFinalize
    rw [M_bind_apply, mGet_apply]
    dsimp only
    rw [if_pos hc]
    rw [M_bind_apply, mMod_apply]
    dsimp only
    by_cases hm : h % 10 = 0
    · rw [if_pos hm]
      rw [finalizeRefresh_mfhEq]
      exact hc
    · rw [if_neg hm]
      exact hc
  · left
    refine ⟨?_, hc⟩
    unfold mkbetFinalize
    rw [M_bind_apply, mGet_apply]
    dsimp only
    rw [if_neg hc]
    rfl

theorem mkbetFinalize_mfh (oc : Oracle) (h : Nat) :
    mPres mfhLe (mkbetFinalize oc h) := by
  intro s
  rcases mkbetFinalize_write oc h s with ⟨he, _⟩ | ⟨_, he⟩
  · exact he.symm.le
  · exact le_trans (by omega) he.symm.le

theorem mkbetLoop_mfh (oc : Oracle) :
    ∀ (l : List Nat) (pu srp : List Q) (acc : Q),
      mPres mfhLe (mkbetLoop oc l pu srp acc) := by
  intro l
  induction l with
  | nil =>
    intro pu srp acc
    simp only [mkbetLoop]
    exact mfhLe_pure _
  | cons h rest ih =>
    intro pu srp acc
    simp only [mkbetLoop]
    refine mfhLe_bind mfhLe_mGet ?_
    intro s
    refine mfhLe_bind (mfhLe_mOfOption _ _) ?_
    intro blkE
    dsimp only
    refine mfhLe_bind (mkbetAsk_mfh _ _ _) ?_
    intro u
    refine mfhLe_bind (mkbetSwitch_mfh _ _) ?_
    intro v
    refine mfhLe_bind mfhLe_mGet ?_
    intro s1
    refine mfhLe_bind (mfhLe_mOfOption _ _) ?_
    intro ph
    refine mfhLe_bind ?_ ?_
    · split
      · exact fun s2 => le_refl _
      · exact mfhLe_pure _
    · intro w
      refine mfhLe_bind mfhLe_mGet ?_
      intro s2
      refine mfhLe_bind (mfhLe_mOfOption _ _) ?_
      intro pl
      refine mfhLe_bind (fun s3 => le_refl _) ?_
      intro x
      dsimp only
      refine mfhLe_bind ?_ ?_
      · split
        · refine mfhLe_bind mfhLe_mGet ?_
          intro s3
          refine mfhLe_bind ?_ ?_
          · split
            · refine mfhLe_bind (mfhLe_mOfOption _ _) ?_
              intro blkE2
              cases blkE2 with
              | some blk => exact mfhLe_pure _
              | none => exact mfhLe_mThrow _
            · exact mfhLe_pure _
          · intro fh
            refine mfhLe_bind mfhLe_mGet ?_
            intro s4
            refine mfhLe_bind (mfhLe_mOfOption _ _) ?_
            intro fl
            refine mfhLe_bind (fun s5 => le_refl _) ?_
            intro y
            exact mkbetFinalize_mfh oc h
        · exact mfhLe_pure _
      · intro z
        exact ih _ _ _

theorem mkbet_mfh (oc : Oracle) : mPres mfhLe (mkbet oc) := by
  unfold mkbet
  refine mfhLe_bind mfhLe_mGet ?_
  intro s
  by_cases h0 : s.now < s.last_bet_made + 2
  · rw [if_pos h0]
    exact mfhLe_pure _
  · rw [if_neg h0]
    refine mfhLe_bind (fun s1 => le_refl _) ?_
    intro u
    refine mfhLe_bind mfhLe_mGet ?_
    intro s1
    dsimp only
    refine mfhLe_bind (mkbetLoop_mfh oc _ _ _ _) ?_
    intro lp
    dsimp only
    refine mfhLe_bind mfhLe_mGet ?_
    intro s2
    dsimp only
    refine mfhLe_bind (recalc_state_roots_mfh oc) ?_
    intro v
    refine mfhLe_bind mfhLe_mGet ?_
    intro s3
    refine mfhLe_bind (mfhLe_mAssert _) ?_
    intro w
    by_cases hc : 0 ≤ s3.index ∧ s3.induction_height < s3.blocks.length ∧
        s3.withdrawn = false ∧ s3.recently_discovered_blocks ≠ []
    · rw [if_pos hc]
      split
      · exact mfhLe_mThrow _
      · refine mfhLe_bind (fun s4 => le_refl _) ?_
        intro x
        refine mfhLe_bind (fun s4 => le_refl _) ?_
        intro y
        refine mfhLe_bind (mfhLe_send _) ?_
        intro z
        refine mfhLe_bind (receive_bet_mfh oc _) ?_
        intro zz
        refine mfhLe_bind mfhLe_mGet ?_
        intro s5
        split
        · exact mfhLe_send _
        · exact mfhLe_pure _
    · rw [if_neg hc]
      exact mfhLe_pure _

theorem receive_block_mfh (oc : Oracle) (blk : Block) :
    mPres mfhLe (receive_block oc blk) := by
  unfold receive_block
  refine mfhLe_bind mfhLe_mGet ?_
  intro s
  by_cases h0 : (alGet s.objects blk.hash).isSome = true
  · rw [if_pos h0]
    exact mfhLe_pure _
  · rw [if_neg h0]
    refine mfhLe_bind (fun s1 => le_refl _) ?_
    intro u
    refine mfhLe_bind mfhLe_mGet ?_
    intro s1
    by_cases h1 : ((blk.number : Int)) ≥ (s1.calc_state_roots_from : Int) +
        oc.ENTER_EXIT_DELAY - 1
    · rw [if_pos h1]
      by_cases h2 : s1.last_time_sent_getblocks < s1.now - 5
      · rw [if_pos h2]
        refine mfhLe_bind (mfhLe_send _) ?_
        intro v
        exact fun s2 => le_refl _
      · rw [if_neg h2]
        exact mfhLe_pure _
    · rw [if_neg h1]
      refine mfhLe_bind (stateAtM_mfh _) ?_
      intro cst
      by_cases h3 : oc.is_block_valid cst blk = false
      · rw [if_pos h3]
        exact mfhLe_pure _
      · rw [if_neg h3]
        refine mfhLe_bind mfhLe_mGet ?_
        intro s2
        refine mfhLe_bind (stateAtM_mfh _) ?_
        intro cst2
        dsimp only
        refine mfhLe_bind ?_ ?_
        · by_cases h4 : oc.getGuardianSignups cst2 > s2.guardian_signups
          · rw [if_pos h4]
            refine mfhLe_bind (fun s3 => le_refl _) ?_
            intro w
            exact update_guardian_set_mfh oc cst2
          · rw [if_neg h4]
            exact mfhLe_pure _
        · intro w
          refine mfhLe_bind mfhLe_mGet ?_
          intro s3
          refine mfhLe_bind (mfhLe_mOfOption _ _) ?_
          intro cur
          refine mfhLe_bind ?_ ?_
          · cases cur with
            | none =>
              refine mfhLe_bind (mfhLe_mOfOption _ _) ?_
              intro bl2
              exact fun s4 => le_refl _
            | some curblk =>
              exact add_transaction_mfh _ _
          · intro x
            refine mfhLe_bind (fun s4 => le_refl _) ?_
            intro y
            refine mfhLe_bind (mfhLe_mFor _ _ ?_) ?_
            · intro e
              refine mfhLe_bind mfhLe_mGet ?_
              intro s4
              by_cases h5 : (alGet s4.finalized_txindex e.1.hash).isSome = true
              · rw [if_pos h5]
                exact mfhLe_pure _
              · rw [if_neg h5]
                exact fun s5 => le_refl _
            · intro z
              refine mfhLe_bind (mfhLe_send _) ?_
              intro zz
              refine mfhLe_bind mfhLe_mGet ?_
              intro s5
              by_cases h6 : s5.index % (oc.VALIDATOR_ROUNDS : Int) =
                  (blk.number : Int) % (oc.VALIDATOR_ROUNDS : Int)
              · rw [if_pos h6]
                exact mkbet_mfh oc
              · rw [if_neg h6]
                exact mfhLe_pure _

theorem should_i_include_transaction_mfh (oc : Oracle) (t : Tx) :
    mPres mfhLe (should_i_include_transaction oc t) := by
  unfold should_i_include_transaction
  refine mfhLe_bind gos_mfh ?_
  intro cst
  cases oc.tx_output cst t with
  | none => exact mfhLe_pure _
  | some output =>
    dsimp only
    by_cases h1 : oc.account_code_ok cst t = false
    · rw [if_pos h1]
      exact mfhLe_pure _
    · rw [if_neg h1]
      by_cases h2 : output.length < 32
      · rw [if_pos h2]
        exact mfhLe_pure _
      · rw [if_neg h2]
        refine mfhLe_bind mfhLe_mGet ?_
        intro s
        by_cases h3 : beToNat (output.take 32) < s.min_gas_price
        · rw [if_pos h3]
          exact mfhLe_pure _
        · rw [if_neg h3]
          exact mfhLe_pure _

theorem mbBetLoop_mfh (oc : Oracle) (i : Nat) :
    ∀ fuel bh gas txs, mPres mfhLe (mbBetLoop oc i fuel bh gas txs) := by
  intro fuel
  induction fuel with
  | zero =>
    intro bh gas txs
    exact mfhLe_pure _
  | succ f ih =>
    intro bh gas txs
    have heq : mbBetLoop oc i (f + 1) bh gas txs = (do
        let s ← mGet
        let bmap ← mOfOption .keyError (alGet s.bets i)
        match alGet bmap bh with
        | none => pure (txs, gas)
        | some bb => do
          let d := bb.payloadBytes
          let gasAmt := 200000 + 6600 * bb.probs.length +
            10000 * (bb.blockhashes.length + bb.stateroots.length)
          let t : Tx := { toAddr := oc.CASPER, gas := gasAmt, data := d,
                          hash := oc.txHash gasAmt d }
          (if bb.max_height = 2 ^ 256 - 1 then
            mMod fun s1 => { s1 with
              tracked_tx_hashes := s1.tracked_tx_hashes ++ [t.hash] }
           else pure ())
          if t.gas > gas then pure (txs, gas)
          else mbBetLoop oc i f (bh + 1) (gas - t.gas) (txs ++ [t])) := rfl
    rw [heq]
    refine mfhLe_bind mfhLe_mGet ?_
    intro s
    refine mfhLe_bind (mfhLe_mOfOption _ _) ?_
    intro bmap
    cases alGet bmap bh with
    | none => exact mfhLe_pure _
    | some bb =>
      dsimp only
      refine mfhLe_bind ?_ ?_
      · split
        · exact fun s1 => le_refl _
        · exact mfhLe_pure _
      · intro u
        split
        · exact mfhLe_pure _
        · exact ih _ _ _

theorem mbOpStep_mfh (oc : Oracle) (cst : CState) (e : Nat × Opinion)
    (acc : List Tx × Nat) : mPres mfhLe (mbOpStep oc cst e acc) := by
  unfold mbOpStep
  dsimp only
  refine mfhLe_bind mfhLe_mGet ?_
  intro s
  refine mfhLe_bind (mfhLe_mOfOption _ _) ?_
  intro bmap
  refine mfhLe_bind (mbBetLoop_mfh oc _ _ _ _ _) ?_
  intro r
  refine mfhLe_bind ?_ ?_
  · split
    · refine mfhLe_bind (mfhLe_send _) ?_
      intro u
      exact fun s1 => le_refl _
    · exact mfhLe_pure _
  · intro u
    exact mfhLe_pure _

theorem mbSweepPos_mfh (oc : Oracle) (h : Hash) (t : Tx) :
    ∀ (l kept : List TxPos), mPres mfhLe (mbSweepPos oc h t l kept) := by
  intro l
  induction l with
  | nil =>
    intro kept
    exact mfhLe_pure _
  | cons pos rest ih =>
    intro kept
    have heq : mbSweepPos oc h t (pos :: rest) kept = (do
        let s ← mGet
        let sr ← mOfOption .indexError (pyGet s.stateroots (pos.1 : Int))
        if sr = none ∨ sr = some zeroHash then mbSweepPos oc h t rest (kept ++ [pos])
        else do
          let p ← mOfOption .indexError (pyGet s.probs (pos.1 : Int))
          if p > qmk 95 100 then do
            let blkE ← mOfOption .indexError (pyGet s.blocks (pos.1 : Int))
            let blk ← (match blkE with
              | some b => pure b
              | none => mThrow .typeError)
            let lb ← mOfOption .indexError blk.summaries[pos.2.2.1]?
            let root ← (match sr with
              | some r => pure r
              | none => mThrow .typeError)
            let lr := oc.logresult (some root) lb pos.2.2.2
            if p > qmk 9999 10000 ∧ lr = 2 then do
              mMod fun s1 => { s1 with txpool := alDel s1.txpool h }
              let s1 ← mGet
              let cur := (alGet s1.finalized_txindex h).getD (t, [])
              mMod fun s2 => { s2 with
                finalized_txindex := alSet s2.finalized_txindex h
                  (cur.1, cur.2 ++ [(pos.1, pos.2.1, pos.2.2.1, pos.2.2.2,
                    oc.logdata (some root) lb pos.2.2.2)]) }
              mbSweepPos oc h t rest kept
            else if p > qmk 95 100 ∧ lr = 1 then do
              let s1 ← mGet
              let cnt := (alGet s1.tx_exceptions h).getD 0 + 1
              mMod fun s2 => { s2 with tx_exceptions := alSet s2.tx_exceptions h cnt }
              (if cnt ≥ 10 then mMod fun s2 => { s2 with txpool := alDel s2.txpool h }
               else pure ())
              mbSweepPos oc h t rest kept
            else if lr = 0 then mbSweepPos oc h t rest kept
            else mbSweepPos oc h t rest (kept ++ [pos])
          else if p < qmk 5 100 then mbSweepPos oc h t rest kept
          else mbSweepPos oc h t rest (kept ++ [pos])) := rfl
    rw [heq]
    refine mfhLe_bind mfhLe_mGet ?_
    intro s
    refine mfhLe_bind (mfhLe_mOfOption _ _) ?_
    intro sr
    split
    · exact ih _
    · refine mfhLe_bind (mfhLe_mOfOption _ _) ?_
      intro p
      split
      · refine mfhLe_bind (mfhLe_mOfOption _ _) ?_
        intro blkE
        refine mfhLe_bind ?_ ?_
        · cases blkE with
          | some b => exact mfhLe_pure _
          | none => exact mfhLe_mThrow _
        · intro blk
          refine mfhLe_bind (mfhLe_mOfOption _ _) ?_
          intro lb
          refine mfhLe_bind ?_ ?_
          · cases sr with
            | some r => exact mfhLe_pure _
            | none => exact mfhLe_mThrow _
          · intro root
            dsimp only
            split
            · refine mfhLe_bind (fun s1 => le_refl _) ?_
              intro u
              refine mfhLe_bind mfhLe_mGet ?_
              intro s1
              dsimp only
              refine mfhLe_bind (fun s2 => le_refl _) ?_
              intro v
              exact ih _
            · split
              · refine mfhLe_bind mfhLe_mGet ?_
                intro s1
                dsimp only
                refine mfhLe_bind (fun s2 => le_refl _) ?_
                intro v
                refine mfhLe_bind ?_ ?_
                · split
                  · exact fun s2 => le_refl _
                  · exact mfhLe_pure _
                · intro w
                  exact ih _
              · split
                · exact ih _
                · exact ih _
      · split
        · exact ih _
        · exact ih _

theorem mbSweepEntry_mfh (oc : Oracle) (e : Hash × Tx × List TxPos) :
    mPres mfhLe (mbSweepEntry oc e) := by
  unfold mbSweepEntry
  refine mfhLe_bind (mbSweepPos_mfh oc _ _ _ _) ?_
  intro kept
  split
  · exact fun s => le_refl _
  · exact fun s => le_refl _

theorem make_block_mfh (oc : Oracle) : mPres mfhLe (make_block oc) := by
  unfold make_block
  refine mfhLe_bind mfhLe_mGet ?_
  intro s
  dsimp only
  refine mfhLe_bind ?_ ?_
  · split
    · exact mfhLe_pure _
    · exact mfhLe_mOfOption _ _
  · intro lsr
    refine mfhLe_bind (mfhLe_mAssert _) ?_
    intro u
    refine mfhLe_bind (mfhLe_mFold _ (fun x d => mbOpStep_mfh oc lsr x d) _ _) ?_
    intro sel2
    refine mfhLe_bind mfhLe_mGet ?_
    intro s1
    refine mfhLe_bind (mfhLe_mFor _ _ (mbSweepEntry_mfh oc)) ?_
    intro v
    refine mfhLe_bind mfhLe_mGet ?_
    intro s2
    refine mfhLe_bind ?_ ?_
    · cases s2.next_block_to_produce with
      | some n =>
        dsimp only
        split
        · exact mfhLe_pure _
        · exact mfhLe_mThrow _
      | none => exact mfhLe_mThrow _
    · intro nb
      dsimp only
      refine mfhLe_bind (mfhLe_send _) ?_
      intro w
      refine mfhLe_bind (receive_block_mfh oc _) ?_
      intro x
      refine mfhLe_bind mfhLe_mGet ?_
      intro s3
      refine mfhLe_bind ?_ ?_
      · split
        · refine mfhLe_bind (get_nonce_mfh oc true) ?_
          intro nonce
          dsimp only
          exact mfhLe_send _
        · exact mfhLe_pure _
      · intro y
        refine mfhLe_bind (fun s4 => le_refl _) ?_
        intro z
        refine mfhLe_bind (add_proposers_mfh oc) ?_
        intro zz
        exact mfhLe_pure _

theorem send_ether_mfh (oc : Oracle) (to_addr : List Nat) (amount : Nat) :
    mPres mfhLe (send_ether oc to_addr amount) := by
  unfold send_ether
  refine mfhLe_bind (get_nonce_mfh oc true) ?_
  intro nonce
  dsimp only
  exact add_transaction_mfh _ _

theorem request_ether_mfh (amount : Nat) :
    mPres mfhLe (request_ether amount) := by
  unfold request_ether
  refine mfhLe_bind mfhLe_mGet ?_
  intro s
  refine mfhLe_bind (mfhLe_send _) ?_
  intro u
  exact fun s1 => le_refl _

theorem tick_mfh (oc : Oracle) : mPres mfhLe (tick oc) := by
  unfold tick
  refine mfhLe_bind mfhLe_mGet ?_
  intro s
  dsimp only
  refine mfhLe_bind ?_ ?_
  · split
    · refine mfhLe_bind gfs_mfh ?_
      intro cstF
      refine mfhLe_bind mfhLe_mGet ?_
      intro s0
      dsimp only
      split
      · split
        · exact mfhLe_pure _
        · split
          · split
            · exact mfhLe_pure _
            · exact request_ether_mfh _
          · exact mfhLe_pure _
      · split
        · exact mfhLe_pure _
        · split
          · exact mfhLe_pure _
          · split
            · exact join_mfh oc
            · refine mfhLe_bind gos_mfh ?_
              intro cstO
              exact update_guardian_set_mfh oc cstO
    · exact mfhLe_pure _
  · intro u
    refine mfhLe_bind mfhLe_mGet ?_
    intro s2
    refine mfhLe_bind ?_ ?_
    · split
      · cases s2.next_block_to_produce with
        | some n =>
          dsimp only
          split
          · refine mfhLe_bind (recalc_state_roots_mfh oc) ?_
            intro v
            refine mfhLe_bind (make_block_mfh oc) ?_
            intro b
            exact mfhLe_pure _
          · exact mfhLe_pure _
        | none => exact mfhLe_pure _
      · split
        · exact add_proposers_mfh oc
        · exact mfhLe_pure _
    · intro v
      refine mfhLe_bind mfhLe_mGet ?_
      intro s3
      split
      · exact mkbet_mfh oc
      · exact mfhLe_pure _

theorem orBetRequest_mfh (oc : Oracle) (fuel index seq : Nat) :
    mPres mfhLe (on_receive oc fuel (.betRequest index seq)) := by
  simp only [on_receive]
  refine mfhLe_bind mfhLe_mGet ?_
  intro s
  cases alGet s.bets index with
  | none => exact mfhLe_pure _
  | some bmap =>
    dsimp only
    refine mfhLe_bind (mfhLe_mOfOption _ _) ?_
    intro hbp
    dsimp only
    refine mfhLe_bind (mfhLe_mCollect _) ?_
    intro bl
    split
    · exact mfhLe_send _
    · exact mfhLe_pure _

theorem orTx_mfh (oc : Oracle) (fuel : Nat) (t : Tx) :
    mPres mfhLe (on_receive oc fuel (.txMsg t)) := by
  simp only [on_receive]
  refine mfhLe_bind (should_i_include_transaction_mfh oc t) ?_
  intro inc
  split
  · exact add_transaction_mfh _ _
  · exact mfhLe_pure _

theorem orGetblock_mfh (oc : Oracle) (fuel : Nat) (arg : List Nat) :
    mPres mfhLe (on_receive oc fuel (.getblock arg)) := by
  simp only [on_receive]
  refine mfhLe_bind mfhLe_mGet ?_
  intro s
  split
  · split
    · split <;> first | exact mfhLe_send _ | exact mfhLe_pure _
    · exact mfhLe_pure _
  · split <;> first | exact mfhLe_send _ | exact mfhLe_pure _

theorem orGetblocks_mfh (oc : Oracle) (fuel blknum : Nat) :
    mPres mfhLe (on_receive oc fuel (.getblocks blknum)) := by
  simp only [on_receive]
  refine mfhLe_bind mfhLe_mGet ?_
  intro s
  dsimp only
  refine mfhLe_bind (mfhLe_send _) ?_
  intro u
  split
  · split <;> first | exact mfhLe_send _ | exact mfhLe_pure _
  · exact mfhLe_pure _

theorem orFaucet_mfh (oc : Oracle) (fuel : Nat) (a : List Nat) (amt : Nat) :
    mPres mfhLe (on_receive oc fuel (.faucet a amt)) := by
  simp only [on_receive]
  refine mfhLe_bind gos_mfh ?_
  intro cstO
  refine mfhLe_bind mfhLe_mGet ?_
  intro s
  split
  · exact send_ether_mfh oc _ _
  · exact mfhLe_send _

theorem on_receive_mfh (oc : Oracle) :
    ∀ (fuel : Nat) (m : NetMsg), mPres mfhLe (on_receive oc fuel m) := by
  intro fuel
  induction fuel with
  | zero =>
    intro m
    cases m with
    | blockMsg b =>
      simp only [on_receive]
      exact receive_block_mfh oc b
    | betMsg d =>
      simp only [on_receive]
      exact receive_bet_mfh oc _
    | betRequest index seq => exact orBetRequest_mfh oc 0 index seq
    | txMsg t => exact orTx_mfh oc 0 t
    | getblock arg => exact orGetblock_mfh oc 0 arg
    | getblocks blknum => exact orGetblocks_mfh oc 0 blknum
    | listMsg ms =>
      simp only [on_receive]
      exact mfhLe_mThrow _
    | faucet a amt => exact orFaucet_mfh oc 0 a amt
  | succ f ih =>
    intro m
    cases m with
    | blockMsg b =>
      simp only [on_receive]
      exact receive_block_mfh oc b
    | betMsg d =>
      simp only [on_receive]
      exact receive_bet_mfh oc _
    | betRequest index seq => exact orBetRequest_mfh oc _ index seq
    | txMsg t => exact orTx_mfh oc _ t
    | getblock arg => exact orGetblock_mfh oc _ arg
    | getblocks blknum => exact orGetblocks_mfh oc _ blknum
    | faucet a amt => exact orFaucet_mfh oc _ a amt
    | listMsg ms =>
      simp only [on_receive]
      have hor : ∀ l, mPres mfhLe (orList oc f l) := by
        intro l
        induction l with
        | nil =>
          simp only [orList]
          exact mfhLe_pure _
        | cons mm r ihl =>
          simp only [orList]
          exact mfhLe_bind (ih mm) fun _ => ihl
      exact hor ms

/-- C2: max_finalized_height is monotonically non-decreasing under every
engine operation — receive_block, receive_bet, mkbet, make_block, tick and
the network dispatcher on_receive — and the single write site, the
finalization advance of the mkbet height loop, assigns it exactly when the
height equals max_finalized_height + 1, setting it to that value. -/
theorem claim_C2_theorem (oc : Oracle) :
    (∀ (blk : Block) (s : NodeState),
      s.max_finalized_height ≤ (receive_block oc blk s).2.max_finalized_height) ∧
    (∀ (b : Bet) (s : NodeState),
      s.max_finalized_height ≤ (receive_bet oc b s).2.max_finalized_height) ∧
    (∀ s : NodeState,
      s.max_finalized_height ≤ (mkbet oc s).2.max_finalized_height) ∧
    (∀ s : NodeState,
      s.max_finalized_height ≤ (make_block oc s).2.max_finalized_height) ∧
    (∀ s : NodeState,
      s.max_finalized_height ≤ (tick oc s).2.max_finalized_height) ∧
    (∀ (fuel : Nat) (m : NetMsg) (s : NodeState),
      s.max_finalized_height ≤ (on_receive oc fuel m s).2.max_finalized_height) ∧
    (∀ (h : Nat) (s : NodeState),
      ((mkbetFinalize oc h s).2.max_finalized_height = s.max_finalized_height ∧
        ¬ ((h : Int) = s.max_finalized_height + 1)) ∨
      ((h : Int) = s.max_finalized_height + 1 ∧
        (mkbetFinalize oc h s).2.max_finalized_height =
          s.max_finalized_height + 1)) :=
  ⟨fun blk s => receive_block_mfh oc blk s,
   fun b s => receive_bet_mfh oc b s,
   fun s => mkbet_mfh oc s,
   fun s => make_block_mfh oc s,
   fun s => tick_mfh oc s,
   fun fuel m s => on_receive_mfh oc fuel m s,
   fun h s => mkbetFinalize_write oc h s⟩

end PyEth
